import Mathlib

/-!  Verification development for the skin-rig control-node merging engine
(`rigs/skin/node_merger.py` and `rigs/skin/skin_rigs.py`).

The Python classes are shallowly embedded: nodes are indices into lists of
records, dynamic dispatch (`can_merge_into`, `get_merge_priority`) becomes
function parameters, Python `set`/`dict` become `Finset`/association lists
with the same observable behaviour, 3D vectors and sizes use exact rational
arithmetic, and code that can raise returns `Option`/`Except`.  -/

namespace Skin

/-- 3D point with exact rational coordinates (embedding of `mathutils.Vector`
positions used by the nodes). -/
abbrev Q3 : Type := ℚ × ℚ × ℚ

/-- Python `max(xs, key=key)`: returns the first element whose key is maximal
(a later element replaces the current best only when its key is strictly
greater), and `none` on an empty list — the case where Python raises
`ValueError: max() arg is an empty sequence`. -/
def pyMax {α β : Type} [LinearOrder β] (key : α → β) : List α → Option α
  | [] => none
  | x :: xs => some (xs.foldl (fun b a => if key b < key a then a else b) x)

/-! ### `skin_rigs.py`: layer and icon enums, `ControlBoneNode` merge predicates -/

namespace ControlNodeLayer

/-- `ControlNodeLayer.FREE = 0` -/
def FREE : Int := 0

/-- `ControlNodeLayer.MIDDLE_PIVOT = 10` -/
def MIDDLE_PIVOT : Int := 10

/-- `ControlNodeLayer.TWEAK = 20` -/
def TWEAK : Int := 20

end ControlNodeLayer

namespace ControlNodeIcon

/-- `ControlNodeIcon.TWEAK = 0` -/
def TWEAK : Int := 0

/-- `ControlNodeIcon.MIDDLE_PIVOT = 1` -/
def MIDDLE_PIVOT : Int := 1

/-- `ControlNodeIcon.FREE = 2` -/
def FREE : Int := 2

/-- `ControlNodeIcon.CUSTOM = 3` -/
def CUSTOM : Int := 3

end ControlNodeIcon

/-- Data of a `ControlBoneNode` relevant to merging: the owning rig (distinct
rig objects are represented by distinct numbers, so Python `is` on rigs is
numeric equality), the owning rig's `chain_priority`, the node's `layer` and
`icon` enum values, its registered `point`, its `size`, its individually
resolved rotation (a quaternion, see `get_rotation`), and its display name
already decomposed by `get_name_base_and_sides` into base and side components
(the decomposition itself lives in `rigify.utils.naming`, outside this
repository). -/
structure ControlBoneNode where
  rig : Nat
  chain_priority : Int
  layer : Int
  icon : Int
  point : Q3
  size : ℚ
  rot : ℚ × ℚ × ℚ × ℚ
  base : String
  side_x : Int
  side_z : Int
deriving DecidableEq

/-- `ControlBoneNode.can_merge_into` (skin_rigs.py lines 104-111):
merging is allowed only up the layers (towards more mechanism) or across a
strictly lower builder `chain_priority`; `MainMergeNode.can_merge_into`
(the `super()` call) always returns `True`. -/
def ControlBoneNode.can_merge_into (self other : ControlBoneNode) : Bool :=
  let dprio := self.chain_priority - other.chain_priority
  decide (dprio ≤ 0) && (decide (self.layer ≤ other.layer) || decide (dprio < 0))

/-- `ControlBoneNode.get_merge_priority` (skin_rigs.py lines 113-118):
prefer the higher and closest layer. -/
def ControlBoneNode.get_merge_priority (self other : ControlBoneNode) : Int :=
  if self.layer ≤ other.layer then -|self.layer - other.layer|
  else -|self.layer - other.layer| - 100

/-- `MainMergeNode.can_merge_into` (node_merger.py line 217): always true. -/
def MainMergeNode.can_merge_into (_self _other : Nat) : Bool := true

/-- `BaseMergeNode.get_merge_priority` (node_merger.py line 200): always 0. -/
def BaseMergeNode.get_merge_priority (_self _other : Nat) : Int := 0

/-! ### `node_merger.py`: `MergeGroup.build`

Nodes are identified by their index in the merger's registration list.  The
reduction is parametrised by the per-node virtual methods (`rig` ownership,
`can_merge_into`, `get_merge_priority`) and by the registered points. -/

/-- Append node `i` to the bucket of rig `r`, creating the bucket at the end
on first use — the insertion behaviour of `collections.defaultdict(list)`. -/
def insertBucket : List (Nat × List Nat) → Nat → Nat → List (Nat × List Nat)
  | [], r, i => [(r, [i])]
  | (r', l) :: rest, r, i =>
    if r' = r then (r', l ++ [i]) :: rest else (r', l) :: insertBucket rest r i

/-- `rig_table` of `MergeGroup.build` (lines 135-138): main nodes partitioned
into per-rig buckets, buckets ordered by first appearance, members in
registration order. -/
def rigTable (rig : Nat → Nat) (main : List Nat) : List (Nat × List Nat) :=
  main.foldl (fun acc i => insertBucket acc (rig i) i) []

/-- Inner loop of the merge-table construction (lines 144-147) for one node
`i`: for every other rig's bucket, filter the targets `i` may merge into and
record `i` as a pending child of the best one.  Python calls
`max(nodes, key=node.get_merge_priority)` with no emptiness guard, so an
empty candidate list raises `ValueError`, embedded as `none`. -/
def addNodeEdges (rig : Nat → Nat) (cmi : Nat → Nat → Bool) (prio : Nat → Nat → Int)
    (i : Nat) : List (Nat × List Nat) → (Nat → Finset Nat) → Option (Nat → Finset Nat)
  | [], t => some t
  | (r, tgt) :: rest, t =>
    if r = rig i then addNodeEdges rig cmi prio i rest t
    else
      match pyMax (prio i) (tgt.filter (cmi i)) with
      | none => none
      | some best =>
        addNodeEdges rig cmi prio i rest (fun j => if j = best then insert i (t j) else t j)

/-- Outer loop of the merge-table construction (lines 141-147), over all main
nodes in registration order. -/
def mergeTableGo (rig : Nat → Nat) (cmi : Nat → Nat → Bool) (prio : Nat → Nat → Int)
    (buckets : List (Nat × List Nat)) :
    List Nat → (Nat → Finset Nat) → Option (Nat → Finset Nat)
  | [], t => some t
  | i :: rest, t =>
    match addNodeEdges rig cmi prio i buckets t with
    | none => none
    | some t' => mergeTableGo rig cmi prio buckets rest t'

/-- The `merge_table` of `MergeGroup.build`: `merge_table[n]` is the set of
pending children of candidate master `n`. -/
def mergeTable (rig : Nat → Nat) (cmi : Nat → Nat → Bool) (prio : Nat → Nat → Int)
    (main : List Nat) : Option (Nat → Finset Nat) :=
  mergeTableGo rig cmi prio (rigTable rig main) main (fun _ => ∅)

/-- Greedy reduction loop of `MergeGroup.build` (lines 150-178): repeatedly
pick the not-yet-finalized candidate with the largest pending-child set (first
in registration order on ties), move it to the centroid of itself and its
children, snap the children onto it, finalize it, and prune merged nodes from
every remaining child set.  Each iteration removes the chosen master from
`pending`, so `fuel := main.length + 1` (supplied by `MergeGroup.build`
below) always exceeds the number of iterations of the Python `while` loop.
Returns the finalized `(master, child set)` pairs in selection order together
with the final node positions. -/
def greedyLoop (main : List Nat) :
    Nat → (Nat → Finset Nat) → Finset Nat → (Nat → Q3) →
    List (Nat × Finset Nat) × (Nat → Q3)
  | 0, _, _, pts => ([], pts)
  | fuel + 1, table, pending, pts =>
    match pyMax (fun nd => (table nd).card) (main.filter (fun nd => nd ∈ pending)) with
    | none => ([], pts)
    | some best =>
      let cs := table best
      let newPt : Q3 := (((cs.card : ℚ) + 1)⁻¹) • (pts best + cs.sum pts)
      let pts' : Nat → Q3 := fun x => if x = best ∨ x ∈ cs then newPt else pts x
      let pending' := (pending.erase best) \ cs
      let table' : Nat → Finset Nat := fun j => table j ∩ pending'
      let r := greedyLoop main fuel table' pending' pts'
      ((best, cs) :: r.1, r.2)

/-- `MergeGroup.build` (node_merger.py lines 131-178) restricted to the main
nodes (query nodes are appended untouched afterwards and own no merges):
build the merge table, then run the greedy reduction over all main nodes.
`none` embeds the unguarded `max()` raising `ValueError` on an empty
candidate list. -/
def MergeGroup.build (rig : Nat → Nat) (cmi : Nat → Nat → Bool) (prio : Nat → Nat → Int)
    (pts0 : Nat → Q3) (main : List Nat) :
    Option (List (Nat × Finset Nat) × (Nat → Q3)) :=
  (mergeTable rig cmi prio main).map
    (fun t => greedyLoop main (main.length + 1) t main.toFinset pts0)

/-- Placeholder node used for out-of-range list access (never reached on the
indices actually used). -/
def dummyNode : ControlBoneNode :=
  ⟨0, 0, 0, 0, (0, 0, 0), 0, (0, 0, 0, 0), "", 0, 0⟩

/-- Node record lookup for a concrete registration list. -/
def nodeAt (ns : List ControlBoneNode) (i : Nat) : ControlBoneNode :=
  ns.getD i dummyNode

/-- `MergeGroup.build` instantiated with the `ControlBoneNode` virtual
methods, for a concrete registration list. -/
def ControlBoneNode.build (ns : List ControlBoneNode) :
    Option (List (Nat × Finset Nat) × (Nat → Q3)) :=
  MergeGroup.build (fun i => (nodeAt ns i).rig)
    (fun i j => ControlBoneNode.can_merge_into (nodeAt ns i) (nodeAt ns j))
    (fun i j => ControlBoneNode.get_merge_priority (nodeAt ns i) (nodeAt ns j))
    (fun i => (nodeAt ns i).point)
    (List.range ns.length)

/-- Scenario for claim C1: two coincident `ControlBoneNode`s with equal chain
priority, node 0 on the `FREE` layer (rig 0) and node 1 on the `TWEAK` layer
(rig 1).  Node 1 cannot merge into any node of rig 0's bucket. -/
def pairC1 : List ControlBoneNode :=
  [⟨0, 0, ControlNodeLayer.FREE, ControlNodeIcon.FREE, (0, 0, 0), 1, (1, 0, 0, 0), "a", 1, 0⟩,
   ⟨1, 0, ControlNodeLayer.TWEAK, ControlNodeIcon.TWEAK, (0, 0, 0), 1, (1, 0, 0, 0), "b", 1, 0⟩]

/-- Scenario for claim C2: chain A (layer `TWEAK`, priority 0) and chain B
(layer `FREE`, priority 0) register coincident endpoints at (0,0,1). -/
def tweakNodeC2 : ControlBoneNode :=
  ⟨0, 0, ControlNodeLayer.TWEAK, ControlNodeIcon.TWEAK, (0, 0, 1), 1, (1, 0, 0, 0), "a", 1, 0⟩

/-- The `FREE`-layer node of the C2 scenario, owned by the other rig. -/
def freeNodeC2 : ControlBoneNode :=
  ⟨1, 0, ControlNodeLayer.FREE, ControlNodeIcon.FREE, (0, 0, 1), 1, (1, 0, 0, 0), "b", 1, 0⟩


/-- Example input for the C6 witness: two coincident main nodes owned by rigs
0 and 1, with `MainMergeNode` merge behaviour. -/
def exampleRigsC6 : List Nat := [0, 1]

/-- Registered points for the C6 witness input. -/
def examplePtsC6 : List Q3 := [(1, 0, 0), (0, 0, 0)]

/-- `MergeGroup.build` on the C6 witness input. -/
abbrev exampleBuildC6 : Option (List (Nat × Finset Nat) × (Nat → Q3)) :=
  MergeGroup.build (fun i => exampleRigsC6.getD i 0) MainMergeNode.can_merge_into
    BaseMergeNode.get_merge_priority (fun i => examplePtsC6.getD i (0, 0, 0)) [0, 1]

/-- Rig assignment for the C5 scenario: rig 0 registers the two coincident
main nodes 0 and 1, rig 1 registers node 2 at the same location. -/
def exampleRigsC5 : List Nat := [0, 0, 1]

/-- Registered points for the C5 scenario (all coincident). -/
def examplePtsC5 : List Q3 := [(0, 0, 0), (0, 0, 0), (0, 0, 0)]

/-- `MergeGroup.build` on the C5 scenario. -/
abbrev exampleBuildC5 : Option (List (Nat × Finset Nat) × (Nat → Q3)) :=
  MergeGroup.build (fun i => exampleRigsC5.getD i 0) MainMergeNode.can_merge_into
    BaseMergeNode.get_merge_priority (fun i => examplePtsC5.getD i (0, 0, 0)) [0, 1, 2]


/-! ### `node_merger.py`: `NodeMerger` clustering -/

/-- Squared Euclidean distance between two points. -/
def dist2 (p q : Q3) : ℚ :=
  (p.1 - q.1) ^ 2 + (p.2.1 - q.2.1) ^ 2 + (p.2.2 - q.2.2) ^ 2

/-- Default `NodeMerger.epsilon`: 1e-5 world units, as an exact rational. -/
def NodeMerger.epsilon : ℚ := 1 / 100000

/-- Whether the registered points of nodes `i` and `j` lie within `eps` of
each other — the inclusive range test of `mathutils.kdtree.KDTree.find_range`,
phrased on squared distances to stay in exact arithmetic. -/
def near (pts : List Q3) (eps : ℚ) (i j : Nat) : Bool :=
  decide (dist2 (pts.getD i 0) (pts.getD j 0) ≤ eps ^ 2)

/-- Indices returned by `tree.find_range(nodes[j].point, self.epsilon)`:
all registered node indices within `eps` of node `j`. -/
def findRange (pts : List Q3) (eps : ℚ) (j : Nat) : Finset Nat :=
  (Finset.range pts.length).filter (fun k => near pts eps j k)

/-- Breadth-first epsilon-closure loop of `NodeMerger.initialize` (lines
74-83): while `pending` is nonempty, query the neighbours of every pending
index, merge them in, and continue with the newly added ones.  Every
iteration that continues strictly grows the merge set inside
`range pts.length`, so the `pts.length + 1` fuel supplied by
`NodeMerger.clusters` below always exceeds the iteration count of the Python
`while` loop. -/
def closeRange (pts : List Q3) (eps : ℚ) : Nat → Finset Nat → Finset Nat → Finset Nat
  | 0, ms, _ => ms
  | fuel + 1, ms, pending =>
    if pending = ∅ then ms
    else
      let added := pending.biUnion (findRange pts eps)
      closeRange pts eps fuel (ms ∪ added) (added \ ms)

/-- Outer clustering loop of `NodeMerger.initialize` (lines 69-87): walk the
registration indices in order, skip those already processed, and emit the
epsilon-closure of each remaining index while marking its members
processed. -/
def clustersGo (pts : List Q3) (eps : ℚ) : List Nat → Finset Nat → List (Finset Nat)
  | [], _ => []
  | i :: rest, processed =>
    if i ∈ processed then clustersGo pts eps rest processed
    else
      let c := closeRange pts eps (pts.length + 1) {i} {i}
      c :: clustersGo pts eps rest (processed ∪ c)

/-- The clusters computed by `NodeMerger.initialize`, in processing order. -/
def NodeMerger.clusters (pts : List Q3) (eps : ℚ) : List (Finset Nat) :=
  clustersGo pts eps (List.range pts.length) ∅

/-- One epsilon step between registered nodes: both indices in range and
their points within `eps`. -/
def epsStep (pts : List Q3) (eps : ℚ) (i j : Nat) : Prop :=
  i < pts.length ∧ j < pts.length ∧ near pts eps i j = true

/-- Connection by a chain of steps each within `eps` — the transitive
closure relation of the claim ("directly or transitively via chained
proximity"). -/
def EpsReach (pts : List Q3) (eps : ℚ) : Nat → Nat → Prop :=
  Relation.ReflTransGen (epsStep pts eps)

/-- Points for the C3 witness: a three-point chain along z where consecutive
points are 7e-6 apart (within epsilon) but the endpoints are 1.4e-5 apart
(outside epsilon), so only the transitive closure joins them. -/
def examplePtsC3 : List Q3 :=
  [(0, 0, 0), (0, 0, 7 / 1000000), (0, 0, 14 / 1000000)]


/-! ### `node_merger.py`: group-class resolution of `NodeMerger.initialize` -/

/-- Cluster-member data relevant to group-class resolution (after the sort by
name): the member's name, its rig's `base_bone`, and its `group_class`.
Classes are drawn from an arbitrary type `C` equipped with a Boolean
`issubclass` relation, mirroring Python class objects. -/
structure GroupClassNode (C : Type) where
  name : String
  base_bone : String
  cls : C
deriving DecidableEq

/-- Structured content of the `MetarigError` raised on a group-class conflict
(node_merger.py lines 101-105): the running most-derived class, the
conflicting member's class, that member's name, and that member's rig's base
bone — exactly the four values interpolated into the message. -/
structure GroupClassConflict (C : Type) where
  group_class : C
  cls : C
  name : String
  base_bone : String
deriving DecidableEq

/-- Message text of the conflict error, rendering classes with `cn`:
the format string is "Group class conflict: ... and ... from ... of ...". -/
def conflictMessage {C : Type} (cn : C → String) (e : GroupClassConflict C) : String :=
  "Group class conflict: " ++ cn e.group_class ++ " and " ++ cn e.cls ++
    " from " ++ e.name ++ " of " ++ e.base_bone

/-- Scan of `NodeMerger.initialize` lines 93-105 over `merge_list[1:]`: keep
the most derived `group_class` seen so far; on a member whose class is
incomparable with it, raise the conflict error. -/
def scanGroupClass {C : Type} (sub : C → C → Bool) :
    C → List (GroupClassNode C) → Except (GroupClassConflict C) C
  | gc, [] => .ok gc
  | gc, item :: rest =>
    if sub item.cls gc then scanGroupClass sub item.cls rest
    else if sub gc item.cls then scanGroupClass sub gc rest
    else .error ⟨gc, item.cls, item.name, item.base_bone⟩

/-- Group-class resolution of a nonempty sorted cluster:
`group_class = merge_list[0].group_class`, then the scan over the tail. -/
def groupClassOf {C : Type} (sub : C → C → Bool) (first : GroupClassNode C)
    (rest : List (GroupClassNode C)) : Except (GroupClassConflict C) C :=
  scanGroupClass sub first.cls rest

/-- Lexicographic comparison of code-point lists — Python string `<=`. -/
def charListLe : List Char → List Char → Bool
  | [], _ => true
  | _ :: _, [] => false
  | a :: as, b :: bs => if a < b then true else if b < a then false else charListLe as bs

/-- Python `<=` on the names used as sort keys. -/
def nameLe (a b : String) : Bool := charListLe a.toList b.toList

/-- One insertion step of a stable sort by name. -/
def orderedInsertName {C : Type} (x : GroupClassNode C) :
    List (GroupClassNode C) → List (GroupClassNode C)
  | [] => [x]
  | y :: ys => if nameLe x.name y.name then x :: y :: ys else y :: orderedInsertName x ys

/-- `merge_list.sort(key=lambda x: x.name)` (node_merger.py line 91), as a
stable insertion sort by name. -/
def sortByName {C : Type} : List (GroupClassNode C) → List (GroupClassNode C)
  | [] => []
  | x :: xs => orderedInsertName x (sortByName xs)

/-- Group-class resolution of a whole cluster as `NodeMerger.initialize`
performs it (lines 89-105): sort the members by name, take the first member's
class, then scan the remaining members in sorted order.  `none` only for the
empty cluster, which never occurs (a cluster contains its seed). -/
def groupClassOfCluster {C : Type} (sub : C → C → Bool)
    (cluster : List (GroupClassNode C)) : Option (Except (GroupClassConflict C) C) :=
  match sortByName cluster with
  | [] => none
  | first :: rest => some (groupClassOf sub first rest)

/-- Boolean prefix test on character lists. -/
def isPrefixList : List Char → List Char → Bool
  | [], _ => true
  | _ :: _, [] => false
  | a :: as, b :: bs => a == b && isPrefixList as bs

/-- Boolean substring test on character lists (used to state what the
conflict message does and does not mention). -/
def containsSub (pat : List Char) : List Char → Bool
  | [] => isPrefixList pat []
  | b :: bs => isPrefixList pat (b :: bs) || containsSub pat bs

/-- Class hierarchy for the C4 scenarios: `A` and `B` are incomparable
subclasses of `Base`, and `D` (multiple inheritance) derives from both. -/
inductive DemoClass where
  | Base
  | A
  | B
  | D
deriving DecidableEq, Fintype

/-- `issubclass` on `DemoClass`. -/
def demoSub : DemoClass → DemoClass → Bool
  | .Base, .Base => true
  | .A, .A => true
  | .A, .Base => true
  | .B, .B => true
  | .B, .Base => true
  | .D, _ => true
  | _, _ => false

/-- Class names on `DemoClass`, for rendering messages. -/
def demoName : DemoClass → String
  | .Base => "Base"
  | .A => "A"
  | .B => "B"
  | .D => "D"

/-- C4 scenario node of class `A` owned by a rig with base bone `bone_A`;
its name sorts first in the cluster. -/
def demoNodeA : GroupClassNode DemoClass := ⟨"node_1_a", "bone_A", .A⟩

/-- C4 scenario node of class `B` owned by a rig with base bone `bone_B`;
its name sorts last in the cluster. -/
def demoNodeB : GroupClassNode DemoClass := ⟨"node_3_b", "bone_B", .B⟩

/-- C4 scenario node of the diamond class `D`; its name sorts between the
other two, so the sorted scan meets it before the `B`-class member. -/
def demoNodeD : GroupClassNode DemoClass := ⟨"node_2_d", "bone_D", .D⟩


/-! ### `skin_rigs.py`: mirror siblings, master size and rotation -/

/-- `name_split` of a node: the `(base, side_x, side_z)` triple produced by
`get_name_base_and_sides`. -/
def ControlBoneNode.name_split (n : ControlBoneNode) : String × Int × Int :=
  (n.base, n.side_x, n.side_z)

/-- Python dict assignment `d[k] = v`: overwrite in place when the key exists
(keeping its original insertion position), else append at the end. -/
def dictInsert {K V : Type} [DecidableEq K] (l : List (K × V)) (k : K) (v : V) :
    List (K × V) :=
  if l.any (fun kv => kv.1 = k) then l.map (fun kv => if kv.1 = k then (k, v) else kv)
  else l ++ [(k, v)]

/-- Python dict built by assigning `d[key v] = v` over the values in order. -/
def dictOf {K V : Type} [DecidableEq K] (key : V → K) (vs : List V) : List (K × V) :=
  vs.foldl (fun acc v => dictInsert acc (key v) v) []

/-- The `mirror_siblings` dict of `find_mirror_siblings` (skin_rigs.py lines
153-164), as its `.values()` list: among the merged siblings (in
`get_merged_siblings` order), those sharing the node's base name, keyed by
`name_split`. -/
def ControlBoneNode.mirror_siblings (self : ControlBoneNode)
    (siblings : List ControlBoneNode) : List ControlBoneNode :=
  (dictOf ControlBoneNode.name_split
    (siblings.filter (fun nd => nd.base = self.base))).map (fun kv => kv.2)

/-- Size computation of `ControlBoneNode.initialize` (lines 228-232): `best`
is the first sibling of maximal icon in sibling order, and the master's size
becomes the mean of the sizes of ALL of `best`'s mirror siblings (the `none`
branch is unreachable: the sibling list always contains the master). -/
def ControlBoneNode.master_size (siblings : List ControlBoneNode) : ℚ :=
  match pyMax (fun nd => nd.icon) siblings with
  | none => 0
  | some best =>
    let bm := ControlBoneNode.mirror_siblings best siblings
    (bm.map (fun nd => nd.size)).sum / (bm.length : ℚ)

/-- Modelled from the spec for the C7 refinement comparison — "canonical size
is the average size among the siblings sharing the node's mirror symmetry and
the highest-ranked visual-style (icon) tier": the top icon tier among a
sibling set. -/
def spec_top_icon (ms : List ControlBoneNode) : Int :=
  match pyMax (fun nd => nd.icon) ms with
  | none => 0
  | some b => b.icon

/-- Modelled from the spec, continued: the siblings sharing the master's
mirror symmetry (base name). -/
def spec_mirror (master : ControlBoneNode) (siblings : List ControlBoneNode) :
    List ControlBoneNode :=
  siblings.filter (fun nd => nd.base = master.base)

/-- Modelled from the spec, continued: the master's mirror siblings of the
highest-ranked icon tier. -/
def spec_sel (master : ControlBoneNode) (siblings : List ControlBoneNode) :
    List ControlBoneNode :=
  (spec_mirror master siblings).filter
    (fun nd => nd.icon == spec_top_icon (spec_mirror master siblings))

/-- Modelled from the spec for the C7 refinement comparison, continued: the
average size among the master's mirror siblings of the highest icon tier. -/
def spec_master_size (master : ControlBoneNode) (siblings : List ControlBoneNode) : ℚ :=
  ((spec_sel master siblings).map (fun nd => nd.size)).sum
    / ((spec_sel master siblings).length : ℚ)

/-- Quaternion with rational components (componentwise addition is all the
rotation sum uses from `mathutils.Quaternion`). -/
abbrev Quat : Type := ℚ × ℚ × ℚ × ℚ

/-- Rotation computation of `ControlBoneNode.initialize` (lines 235-238)
before normalization: the componentwise sum of the mirror siblings'
individually resolved rotations, starting from `Quaternion((0,0,0,0))`.
Normalization divides by the (irrational) magnitude, so the theorems keep it
abstract and quantify over the normalizing function applied to this sum. -/
def ControlBoneNode.rotation_sum (self : ControlBoneNode)
    (siblings : List ControlBoneNode) : Quat :=
  ((ControlBoneNode.mirror_siblings self siblings).map (fun nd => nd.rot)).sum

/-- C7 scenario: the master, base name `a`, lowest icon tier, size 10. -/
def sizeNodeM : ControlBoneNode :=
  ⟨0, 0, 0, ControlNodeIcon.TWEAK, (0, 0, 0), 10, (1, 0, 0, 0), "a", 0, 0⟩

/-- C7 scenario: follower of base name `b`, highest icon tier, size 1. -/
def sizeNodeB : ControlBoneNode :=
  ⟨1, 0, 0, ControlNodeIcon.FREE, (0, 0, 0), 1, (1, 0, 0, 0), "b", 1, 0⟩

/-- C7 scenario: mirror of `sizeNodeB` on the other side, lowest icon tier,
size 3. -/
def sizeNodeB2 : ControlBoneNode :=
  ⟨2, 0, 0, ControlNodeIcon.TWEAK, (0, 0, 0), 3, (1, 0, 0, 0), "b", -1, 0⟩

/-- C7 witness: three mutually mirrored top-tier siblings, size 1. -/
def sizeNodeW1 : ControlBoneNode :=
  ⟨0, 0, 0, ControlNodeIcon.FREE, (0, 0, 0), 1, (1, 0, 0, 0), "w", 0, 0⟩

/-- C7 witness: second sibling, size 1. -/
def sizeNodeW2 : ControlBoneNode :=
  ⟨1, 0, 0, ControlNodeIcon.FREE, (0, 0, 0), 1, (1, 0, 0, 0), "w", 1, 0⟩

/-- C7 witness: third sibling, size 2. -/
def sizeNodeW3 : ControlBoneNode :=
  ⟨2, 0, 0, ControlNodeIcon.FREE, (0, 0, 0), 2, (1, 0, 0, 0), "w", -1, 0⟩

/-- C8 witness: left-side node with rotation (1,0,0,0). -/
def rotNodeL : ControlBoneNode :=
  ⟨0, 0, 0, ControlNodeIcon.TWEAK, (0, 0, 0), 1, (1, 0, 0, 0), "r", 1, 0⟩

/-- C8 witness: right-side node with rotation (0,1,0,0). -/
def rotNodeR : ControlBoneNode :=
  ⟨1, 0, 0, ControlNodeIcon.TWEAK, (0, 0, 0), 1, (0, 1, 0, 0), "r", -1, 0⟩


/-! ### `skin_rigs.py`: `ControlBoneParentOffset` and the parent cache -/

/-- Variable map of a driver expression term: variable name to an opaque
equality-comparable descriptor (descriptors modelled as numbers). -/
abbrev DriverVars : Type := List (String × Nat)

/-- One driver expression term `(expression, variables)`. -/
abbrev DriverTerm : Type := String × DriverVars

/-- Value of one `copy_local` entry `[influence, drivers, lazyinf]`:
accumulated constant influence, appended expression terms, appended deferred
influence callables (callables compare by identity in Python, modelled as
opaque numbers). -/
structure CopyLocalVal where
  const : ℚ
  exprs : List DriverTerm
  lazies : List Nat
deriving DecidableEq

/-- Value of one `add_local` entry: one list of driver terms per axis. -/
structure AddLocalVal where
  x : List DriverTerm
  y : List DriverTerm
  z : List DriverTerm
deriving DecidableEq

/-- Upstream parent handle of a compositor: a `ControlBoneParentOrg`, which
wraps an ORG bone name and compares by it (skin_rigs.py lines 424-438). -/
inductive CBParent where
  | org (bone : String)
deriving DecidableEq

/-- `output_bone` of a wrapped parent. -/
def CBParent.output_bone : CBParent → String
  | .org b => b

/-- State of a `ControlBoneParentOffset` (lines 488-494): the wrapped parent,
the `copy_local` dict keyed by target bone, the `add_local` dict keyed by the
quantized orientation, the remembered exact orientations, and the owning
node's name (used only for derived bone names; like `node`, not part of
`__eq__`). -/
structure ControlBoneParentOffset where
  parent : CBParent
  copy_local : List (String × CopyLocalVal)
  add_local : List ((Int × Int × Int) × AddLocalVal)
  add_orientations : List ((Int × Int × Int) × Q3)
  node_name : String
deriving DecidableEq

/-- Argument of `ControlBoneParentOffset.wrap`: the existing parent, which is
either already a compositor or some other parent kind. -/
inductive WrapParent where
  | plain (p : CBParent)
  | offset (p : ControlBoneParentOffset)

/-- `ControlBoneParentOffset.wrap` (lines 481-486): coalesce into an existing
compositor, else construct a fresh one with empty contribution dicts. -/
def ControlBoneParentOffset.wrap (parent : WrapParent) (node_name : String) :
    ControlBoneParentOffset :=
  match parent with
  | .offset p => p
  | .plain p => ⟨p, [], [], [], node_name⟩

/-- Python dict lookup `l[k]` as an option. -/
def dictLookup {K V : Type} [DecidableEq K] (l : List (K × V)) (k : K) : Option V :=
  (l.find? (fun kv => kv.1 = k)).map (fun kv => kv.2)

/-- The three influence forms accepted by `add_copy_local_location`:
a constant, a driver-expression term, or a deferred callable. -/
inductive Influence where
  | const (v : ℚ)
  | expr (t : DriverTerm)
  | lazy (id : Nat)

/-- `add_copy_local_location` (lines 496-505): constants sum, expression
terms append, deferred callables append, all keyed by target bone. -/
def ControlBoneParentOffset.add_copy_local_location (p : ControlBoneParentOffset)
    (target : String) (inf : Influence) : ControlBoneParentOffset :=
  let cur := (dictLookup p.copy_local target).getD ⟨0, [], []⟩
  let cur2 := match inf with
    | .const v => { cur with const := cur.const + v }
    | .expr t => { cur with exprs := cur.exprs ++ [t] }
    | .lazy i => { cur with lazies := cur.lazies ++ [i] }
  { p with copy_local := dictInsert p.copy_local target cur2 }

/-- Orientation quantization `tuple(round(x*10000) for x in orientation)` of
`add_location_driver` (line 510).  Mathlib `round` rounds halves up where
Python rounds them to even; the two agree off the exact half grid, and no
claim depends on half-grid inputs. -/
def quantize (v : Q3) : Int × Int × Int :=
  (round (v.1 * 10000), round (v.2.1 * 10000), round (v.2.2 * 10000))

/-- `add_location_driver` (lines 507-516): bucket by quantized orientation,
remember the exact orientation of a new bucket, and append the term to the
chosen axis list. -/
def ControlBoneParentOffset.add_location_driver (p : ControlBoneParentOffset)
    (orientation : Q3) (index : Fin 3) (t : DriverTerm) : ControlBoneParentOffset :=
  let key := quantize orientation
  let orients := if (dictLookup p.add_local key).isSome then p.add_orientations
    else p.add_orientations ++ [(key, orientation)]
  let cur := (dictLookup p.add_local key).getD ⟨[], [], []⟩
  let cur2 := match index with
    | ⟨0, _⟩ => { cur with x := cur.x ++ [t] }
    | ⟨1, _⟩ => { cur with y := cur.y ++ [t] }
    | _ => { cur with z := cur.z ++ [t] }
  { p with add_local := dictInsert p.add_local key cur2, add_orientations := orients }

/-- Pointwise Boolean equality of optional values. -/
def optBeq {V : Type} (f : V → V → Bool) : Option V → Option V → Bool
  | none, none => true
  | some a, some b => f a b
  | _, _ => false

/-- Python `dict` equality: the same keys with `f`-equal values, regardless
of insertion order. -/
def dictBeq {K V : Type} [DecidableEq K] (f : V → V → Bool)
    (l1 l2 : List (K × V)) : Bool :=
  (l1.map Prod.fst ++ l2.map Prod.fst).all
    (fun k => optBeq f (dictLookup l1 k) (dictLookup l2 k))

/-- Python `==` on variable maps (dicts of opaque descriptors). -/
def driverVarsBeq (a b : DriverVars) : Bool := dictBeq (fun x y : Nat => x == y) a b

/-- Python `==` on `(expression, variables)` terms. -/
def driverTermBeq (a b : DriverTerm) : Bool := a.1 == b.1 && driverVarsBeq a.2 b.2

/-- Elementwise Boolean list equality (Python list `==`). -/
def listBeq {V : Type} (f : V → V → Bool) : List V → List V → Bool
  | [], [] => true
  | a :: as, b :: bs => f a b && listBeq f as bs
  | _, _ => false

/-- Python `==` on `copy_local` values `[influence, drivers, lazyinf]`. -/
def copyLocalValBeq (a b : CopyLocalVal) : Bool :=
  a.const == b.const && listBeq driverTermBeq a.exprs b.exprs && a.lazies == b.lazies

/-- Python `==` on `add_local` values (the three axis lists). -/
def addLocalValBeq (a b : AddLocalVal) : Bool :=
  listBeq driverTermBeq a.x b.x && listBeq driverTermBeq a.y b.y &&
    listBeq driverTermBeq a.z b.z

/-- `ControlBoneParentOffset.__eq__` (lines 518-524): same parent and equal
`copy_local` and `add_local` dicts; `add_orientations` and the node are not
compared. -/
def ControlBoneParentOffset.eq (a b : ControlBoneParentOffset) : Bool :=
  a.parent == b.parent && dictBeq copyLocalValBeq a.copy_local b.copy_local
    && dictBeq addLocalValBeq a.add_local b.add_local

/-- The `parent_subrig_cache` of a master node, with each stored compositor
paired with its object identity (a fresh number per appended entry), plus the
next fresh identity. -/
structure ParentCache where
  entries : List (Nat × ControlBoneParentOffset)
  next : Nat

/-- Deduplication step of `build_parent_for_node` (skin_rigs.py lines
192-204): scan the cache for the first value-equal previous result and
return that very object; otherwise append the freshly built result as a new
object.  Returns the identity of the returned object and the updated
cache. -/
def build_parent_for_node (c : ParentCache) (result : ControlBoneParentOffset) :
    Nat × ParentCache :=
  match c.entries.find? (fun e => ControlBoneParentOffset.eq e.2 result) with
  | some e => (e.1, c)
  | none => (c.next, ⟨c.entries ++ [(c.next, result)], c.next + 1⟩)

/-- Modelled from the spec: `make_derived_name(name, 'mch', '_poffset')` from
`rigify.utils.naming`, which is outside this repository; the exact format is
irrelevant to the claims. -/
def make_derived_name (nm : String) : String := "MCH-" ++ nm ++ "_poffset"

/-- `ControlBoneParentOffset.generate_bones` (lines 530-540): no bones when
both contribution dicts are empty; one bone per orientation bucket when
location drivers exist; otherwise a single offset bone. -/
def ControlBoneParentOffset.generate_bones (p : ControlBoneParentOffset) : List String :=
  if p.copy_local.isEmpty && p.add_local.isEmpty then []
  else if p.add_local.isEmpty then [make_derived_name p.node_name]
  else p.add_local.map (fun _ => make_derived_name p.node_name)

/-- `ControlBoneParentOffset.output_bone` (lines 526-528): the last generated
offset bone, or the wrapped parent's output bone when none was generated. -/
def ControlBoneParentOffset.output_bone (p : ControlBoneParentOffset) : String :=
  match p.generate_bones.getLast? with
  | some b => b
  | none => p.parent.output_bone

/-- C9 witness value: a compositor over `ORG-spine` with driver-expression
weights on two targets. -/
def offsetV1 : ControlBoneParentOffset :=
  ((ControlBoneParentOffset.wrap (.plain (.org "ORG-spine")) "nodeA").add_copy_local_location
      "t1" (.expr ("var_a", [("a", 1)]))).add_copy_local_location
      "t2" (.expr ("var_b", [("b", 2)]))

/-- C9 witness value: the same contributions accumulated in the opposite
target order — value-equal to `offsetV1` (Python dict equality ignores
insertion order) but not syntactically identical. -/
def offsetV2 : ControlBoneParentOffset :=
  ((ControlBoneParentOffset.wrap (.plain (.org "ORG-spine")) "nodeB").add_copy_local_location
      "t2" (.expr ("var_b", [("b", 2)]))).add_copy_local_location
      "t1" (.expr ("var_a", [("a", 1)]))

/-- C9 witness value: a differently-weighted contribution on `t1`. -/
def offsetV3 : ControlBoneParentOffset :=
  ((ControlBoneParentOffset.wrap (.plain (.org "ORG-spine")) "nodeC").add_copy_local_location
      "t1" (.expr ("var_a * 2", [("a", 1)]))).add_copy_local_location
      "t2" (.expr ("var_b", [("b", 2)]))

end Skin

namespace Skin

/-! ### Helper lemmas about `pyMax` -/

/-- The fold underlying `pyMax` returns one of the candidates. -/
theorem pyMax_foldl_mem {α β : Type} [LinearOrder β] (key : α → β) :
    ∀ (xs : List α) (b : α), xs.foldl (fun b a => if key b < key a then a else b) b ∈ b :: xs := by
  intro xs
  induction xs with
  | nil => intro b; simp
  | cons a xs ih =>
    intro b
    simp only [List.foldl_cons]
    by_cases h : key b < key a
    · simp only [if_pos h]
      have h2 := ih a
      simp only [List.mem_cons] at h2 ⊢
      tauto
    · simp only [if_neg h]
      have h2 := ih b
      simp only [List.mem_cons] at h2 ⊢
      tauto

/-- `pyMax` returns an element of its input list. -/
theorem pyMax_mem {α β : Type} [LinearOrder β] (key : α → β) (l : List α) (x : α)
    (h : pyMax key l = some x) : x ∈ l := by
  cases l with
  | nil => simp [pyMax] at h
  | cons b xs =>
    simp only [pyMax, Option.some.injEq] at h
    exact h ▸ pyMax_foldl_mem key xs b

/-! ### Invariants of the greedy reduction loop -/

/-- Nodes outside `pending` are never moved by the greedy loop: their position
at the end of `MergeGroup.build` is their position on entry. -/
theorem greedyLoop_frame (main : List Nat) :
    ∀ (fuel : Nat) (table : Nat → Finset Nat) (pending : Finset Nat) (pts : Nat → Q3)
      (x : Nat), (∀ j, table j ⊆ pending) → x ∉ pending →
      (greedyLoop main fuel table pending pts).2 x = pts x := by
  intro fuel
  induction fuel with
  | zero => intro table pending pts x _ _; rfl
  | succ fuel ih =>
    intro table pending pts x hsub hx
    simp only [greedyLoop]
    cases hmax : pyMax (fun nd => (table nd).card) (main.filter (fun nd => nd ∈ pending)) with
    | none => rfl
    | some best =>
      have hbestp : best ∈ pending := by
        have h2 := pyMax_mem _ _ _ hmax
        simp only [List.mem_filter, decide_eq_true_eq] at h2
        exact h2.2
      have hxb : x ≠ best := fun h => hx (h ▸ hbestp)
      have hxcs : x ∉ table best := fun h => hx (hsub best h)
      have hrec := ih (fun j => table j ∩ ((pending.erase best) \ table best))
        ((pending.erase best) \ table best)
        (fun y => if y = best ∨ y ∈ table best
          then (((table best).card : ℚ) + 1)⁻¹ • (pts best + (table best).sum pts) else pts y)
        x
        (fun j => Finset.inter_subset_right)
        (fun hmem => hx (Finset.mem_of_mem_erase (Finset.mem_sdiff.mp hmem).1))
      have hcond : ¬(x = best ∨ x ∈ table best) := by
        push_neg
        exact ⟨hxb, hxcs⟩
      rw [hrec]
      simp only [if_neg hcond]

/-- Every child attached to a master by the greedy loop came from the merge
table, whose edges only relate nodes of distinct rigs. -/
theorem greedyLoop_rig_distinct (main : List Nat) (rig : Nat → Nat) :
    ∀ (fuel : Nat) (table : Nat → Finset Nat) (pending : Finset Nat) (pts : Nat → Q3),
      (∀ j x, x ∈ table j → rig x ≠ rig j) →
      ∀ m cs, (m, cs) ∈ (greedyLoop main fuel table pending pts).1 →
        ∀ c ∈ cs, rig c ≠ rig m := by
  intro fuel
  induction fuel with
  | zero =>
    intro table pending pts _ m cs hm
    simp [greedyLoop] at hm
  | succ fuel ih =>
    intro table pending pts htab m cs hm c hc
    cases hmax : pyMax (fun nd => (table nd).card) (main.filter (fun nd => nd ∈ pending)) with
    | none =>
      simp only [greedyLoop, hmax] at hm
      simp at hm
    | some best =>
      simp only [greedyLoop, hmax, List.mem_cons] at hm
      rcases hm with hm | hm
      · rcases Prod.mk.injEq .. ▸ hm with ⟨h1, h2⟩
        subst h1
        exact htab m c (h2 ▸ hc)
      · exact ih _ _ _ (fun j x hx => htab j x (Finset.mem_of_mem_inter_left hx)) m cs hm c hc

/-- Centroid invariant of the greedy loop: whenever a master is finalized,
its final position is the mean of the entry position of itself and of its
pending children (all still unmodified, since they were still pending), and
the children end at the master's final position. -/
theorem greedyLoop_centroid (main : List Nat) (pts0 : Nat → Q3) :
    ∀ (fuel : Nat) (table : Nat → Finset Nat) (pending : Finset Nat) (pts : Nat → Q3),
      (∀ j, table j ⊆ pending) → (∀ x ∈ pending, pts x = pts0 x) →
      ∀ m cs, (m, cs) ∈ (greedyLoop main fuel table pending pts).1 →
        (greedyLoop main fuel table pending pts).2 m
            = ((cs.card : ℚ) + 1)⁻¹ • (pts0 m + cs.sum pts0) ∧
        ∀ c ∈ cs, (greedyLoop main fuel table pending pts).2 c
            = (greedyLoop main fuel table pending pts).2 m := by
  intro fuel
  induction fuel with
  | zero =>
    intro table pending pts _ _ m cs hm
    simp [greedyLoop] at hm
  | succ fuel ih =>
    intro table pending pts hsub hpts m cs hm
    cases hmax : pyMax (fun nd => (table nd).card) (main.filter (fun nd => nd ∈ pending)) with
    | none =>
      simp only [greedyLoop, hmax] at hm
      simp at hm
    | some best =>
      have hbestp : best ∈ pending := by
        have h2 := pyMax_mem _ _ _ hmax
        simp only [List.mem_filter, decide_eq_true_eq] at h2
        exact h2.2
      set cs0 := table best with hcs0
      set newPt : Q3 := (((cs0.card : ℚ) + 1)⁻¹) • (pts best + cs0.sum pts) with hnewPt
      set pts' : Nat → Q3 := fun y => if y = best ∨ y ∈ cs0 then newPt else pts y with hpts'
      set pending' := (pending.erase best) \ cs0 with hpending'
      set table' : Nat → Finset Nat := fun j => table j ∩ pending' with htable'
      have hsub' : ∀ j, table' j ⊆ pending' := fun j => Finset.inter_subset_right
      have hptsP : ∀ x ∈ pending', pts' x = pts0 x := by
        intro x hx
        rcases Finset.mem_sdiff.mp hx with ⟨hxe, hxcs⟩
        have hxb : x ≠ best := Finset.ne_of_mem_erase hxe
        have hxp : x ∈ pending := Finset.mem_of_mem_erase hxe
        have hcond : ¬(x = best ∨ x ∈ cs0) := by
          push_neg
          exact ⟨hxb, hxcs⟩
        simp only [hpts']
        simp only [if_neg hcond]
        exact hpts x hxp
      have hframe : ∀ x, x ∉ pending' →
          (greedyLoop main fuel table' pending' pts').2 x = pts' x :=
        fun x hx => greedyLoop_frame main fuel table' pending' pts' x hsub' hx
      have hnotb : best ∉ pending' := by
        simp [hpending', Finset.mem_sdiff]
      have hcenter : (greedyLoop main fuel table' pending' pts').2 best = newPt := by
        rw [hframe best hnotb]
        simp [hpts']
      simp only [greedyLoop, hmax, List.mem_cons] at hm
      rcases hm with hm | hm
      · have h1 : m = best := congrArg Prod.fst hm
        have h2 : cs = cs0 := congrArg Prod.snd hm
        subst h1
        constructor
        · simp only [greedyLoop, hmax]
          rw [hcenter, h2, hnewPt]
          congr 1
          rw [hpts m hbestp]
          congr 1
          exact Finset.sum_congr rfl (fun c hc => hpts c (hsub m hc))
        · intro c hc
          have hcc : c ∈ cs0 := h2 ▸ hc
          have hcnp : c ∉ pending' := by
            simp [hpending', Finset.mem_sdiff, hcc]
          simp only [greedyLoop, hmax]
          rw [hframe c hcnp, hcenter]
          simp [hpts', hcc]
      · have hrec := ih table' pending' pts' hsub' hptsP m cs hm
        simp only [greedyLoop, hmax]
        exact hrec

/-! ### Invariants of the merge-table construction -/

/-- `insertBucket` preserves the bucket invariant: every bucket holds exactly
the nodes of its rig. -/
theorem insertBucket_spec (rig : Nat → Nat) :
    ∀ (acc : List (Nat × List Nat)) (r i : Nat),
      (∀ p ∈ acc, ∀ j ∈ p.2, rig j = p.1) → rig i = r →
      ∀ p ∈ insertBucket acc r i, ∀ j ∈ p.2, rig j = p.1 := by
  intro acc
  induction acc with
  | nil =>
    intro r i _ hi p hp j hj
    simp only [insertBucket, List.mem_singleton] at hp
    subst hp
    simp only [List.mem_singleton] at hj
    subst hj
    exact hi
  | cons q rest ih =>
    intro r i hacc hi p hp j hj
    rcases q with ⟨r', l⟩
    by_cases hr : r' = r
    · simp only [insertBucket, if_pos hr, List.mem_cons] at hp
      rcases hp with hp | hp
      · subst hp
        simp only [List.mem_append, List.mem_singleton] at hj
        rcases hj with hj | hj
        · exact hacc (r', l) (List.mem_cons_self _ _) j hj
        · subst hj
          exact hr ▸ hi
      · exact hacc p (List.mem_cons_of_mem _ hp) j hj
    · simp only [insertBucket, if_neg hr, List.mem_cons] at hp
      rcases hp with hp | hp
      · subst hp
        exact hacc (r', l) (List.mem_cons_self _ _) j hj
      · exact ih r i (fun p' hp' => hacc p' (List.mem_cons_of_mem _ hp')) hi p hp j hj

/-- Every member of a `rigTable` bucket is owned by that bucket's rig. -/
theorem rigTable_spec (rig : Nat → Nat) (main : List Nat) :
    ∀ p ∈ rigTable rig main, ∀ j ∈ p.2, rig j = p.1 := by
  have hgen : ∀ (l : List Nat) (acc : List (Nat × List Nat)),
      (∀ p ∈ acc, ∀ j ∈ p.2, rig j = p.1) →
      ∀ p ∈ l.foldl (fun acc i => insertBucket acc (rig i) i) acc, ∀ j ∈ p.2, rig j = p.1 := by
    intro l
    induction l with
    | nil => intro acc hacc; exact hacc
    | cons i rest ih =>
      intro acc hacc
      exact ih _ (insertBucket_spec rig acc (rig i) i hacc rfl)
  exact hgen main [] (by simp)

/-- Edges added for node `i` point from `i` to a best target in another
rig's bucket, so the child is always of a different rig than the key. -/
theorem addNodeEdges_spec (rig : Nat → Nat) (cmi : Nat → Nat → Bool) (prio : Nat → Nat → Int)
    (i : Nat) :
    ∀ (buckets : List (Nat × List Nat)) (t t' : Nat → Finset Nat),
      (∀ p ∈ buckets, ∀ j ∈ p.2, rig j = p.1) →
      addNodeEdges rig cmi prio i buckets t = some t' →
      ∀ j x, x ∈ t' j → x ∈ t j ∨ (x = i ∧ rig j ≠ rig i) := by
  intro buckets
  induction buckets with
  | nil =>
    intro t t' _ h j x hx
    simp only [addNodeEdges, Option.some.injEq] at h
    exact Or.inl (h ▸ hx)
  | cons q rest ih =>
    intro t t' hb h j x hx
    rcases q with ⟨r, tgt⟩
    by_cases hr : r = rig i
    · simp only [addNodeEdges, if_pos hr] at h
      exact ih t t' (fun p hp => hb p (List.mem_cons_of_mem _ hp)) h j x hx
    · simp only [addNodeEdges, if_neg hr] at h
      cases hmax : pyMax (prio i) (tgt.filter (cmi i)) with
      | none => rw [hmax] at h; exact absurd h (by simp)
      | some best =>
        rw [hmax] at h
        have hbr : rig best = r := by
          have hmem := pyMax_mem _ _ _ hmax
          exact hb (r, tgt) (List.mem_cons_self _ _) best (List.mem_of_mem_filter hmem)
        have hrec := ih _ t' (fun p hp => hb p (List.mem_cons_of_mem _ hp)) h j x hx
        rcases hrec with hrec | hrec
        · by_cases hjb : j = best
          · have hrec2 : x ∈ insert i (t j) := by
              rw [hjb] at hrec ⊢
              simpa using hrec
            rcases Finset.mem_insert.mp hrec2 with hrec2 | hrec2
            · refine Or.inr ⟨hrec2, ?_⟩
              rw [hjb, hbr]
              exact hr
            · exact Or.inl hrec2
          · simp only [if_neg hjb] at hrec
            exact Or.inl hrec
        · exact Or.inr hrec

/-- Accumulated form of the merge-table invariant over the outer loop. -/
theorem mergeTableGo_spec (rig : Nat → Nat) (cmi : Nat → Nat → Bool) (prio : Nat → Nat → Int)
    (buckets : List (Nat × List Nat))
    (hb : ∀ p ∈ buckets, ∀ j ∈ p.2, rig j = p.1) :
    ∀ (l : List Nat) (t t' : Nat → Finset Nat),
      mergeTableGo rig cmi prio buckets l t = some t' →
      ∀ j x, x ∈ t' j → x ∈ t j ∨ (x ∈ l ∧ rig x ≠ rig j) := by
  intro l
  induction l with
  | nil =>
    intro t t' h j x hx
    simp only [mergeTableGo, Option.some.injEq] at h
    exact Or.inl (h ▸ hx)
  | cons i rest ih =>
    intro t t' h j x hx
    simp only [mergeTableGo] at h
    cases hadd : addNodeEdges rig cmi prio i buckets t with
    | none => rw [hadd] at h; exact absurd h (by simp)
    | some t1 =>
      rw [hadd] at h
      rcases ih t1 t' h j x hx with h1 | h1
      · rcases addNodeEdges_spec rig cmi prio i buckets t t1 hb hadd j x h1 with h2 | h2
        · exact Or.inl h2
        · rcases h2 with ⟨hxi, hne⟩
          subst hxi
          exact Or.inr ⟨List.mem_cons_self _ _, Ne.symm hne⟩
      · exact Or.inr ⟨List.mem_cons_of_mem _ h1.1, h1.2⟩

/-- Every pending-child edge of the merge table joins a registered main node
to a candidate master of a different rig. -/
theorem mergeTable_spec (rig : Nat → Nat) (cmi : Nat → Nat → Bool) (prio : Nat → Nat → Int)
    (main : List Nat) (t : Nat → Finset Nat)
    (h : mergeTable rig cmi prio main = some t) :
    ∀ j x, x ∈ t j → x ∈ main ∧ rig x ≠ rig j := by
  intro j x hx
  rcases mergeTableGo_spec rig cmi prio (rigTable rig main) (rigTable_spec rig main)
      main (fun _ => ∅) t h j x hx with h1 | h1
  · exact absurd h1 (Finset.not_mem_empty x)
  · exact h1

end Skin

namespace Skin

/-- Claim C1 (code_bug): at the failing input — coincident `FREE`-layer and
`TWEAK`-layer nodes of two rigs with equal chain priority — the `TWEAK` node
can merge into no node of the other rig's bucket, yet `MergeGroup.build` does
not complete normally: the unguarded `max()` at node_merger.py line 147 gets
an empty sequence and raises `ValueError`, embedded here as the build
evaluating to `none` instead of a result where the pair simply never merges. -/
theorem MergeGroup.build_raises_on_unmergeable_bucket :
    ControlBoneNode.build pairC1 = none ∧
    ControlBoneNode.can_merge_into (nodeAt pairC1 1) (nodeAt pairC1 0) = false :=
  ⟨rfl, rfl⟩

/-- Claim C2 (counterexample): for coincident `ControlBoneNode`s of equal
chain priority, `can_merge_into` does NOT permit a merge from the
`TWEAK`-layer node into the `FREE`-layer node, and DOES permit the reverse —
the direction stated by the claim is inverted (`ControlNodeLayer` orders
`FREE = 0 < TWEAK = 20` and merging is allowed only towards a
greater-or-equal layer). -/
theorem ControlBoneNode.can_merge_into_direction_cx :
    ControlBoneNode.can_merge_into tweakNodeC2 freeNodeC2 = false ∧
    ControlBoneNode.can_merge_into freeNodeC2 tweakNodeC2 = true :=
  ⟨rfl, rfl⟩

/-- Claim C2 (amended): with equal chain priority, merging is permitted only
from the `FREE`-layer node into the `TWEAK`-layer node, never the reverse;
and the merge reduction then fails on this pair (the missing empty-candidate
guard makes `max()` raise `ValueError`, embedded as `none`) instead of
electing the `TWEAK` node as master. -/
theorem ControlBoneNode.free_merges_into_tweak_only :
    ControlBoneNode.can_merge_into freeNodeC2 tweakNodeC2 = true ∧
    ControlBoneNode.can_merge_into tweakNodeC2 freeNodeC2 = false ∧
    ControlBoneNode.build [tweakNodeC2, freeNodeC2] = none :=
  ⟨rfl, rfl, rfl⟩

/-- Claim C5 (amended): in every merged cluster produced by
`MergeGroup.build`, each follower belongs to a rig distinct from its master's
rig — a node never merges into a node of its own rig (followers of one master
may still share a rig among themselves). -/
theorem MergeGroup.build_child_rig_ne_master_rig
    (rig : Nat → Nat) (cmi : Nat → Nat → Bool) (prio : Nat → Nat → Int)
    (pts0 : Nat → Q3) (main : List Nat)
    (res : List (Nat × Finset Nat) × (Nat → Q3))
    (h : MergeGroup.build rig cmi prio pts0 main = some res) :
    ∀ mcs ∈ res.1, ∀ c ∈ mcs.2, rig c ≠ rig mcs.1 := by
  rcases Option.map_eq_some'.mp h with ⟨t, ht, hres⟩
  subst hres
  intro mcs hmcs c hc
  exact greedyLoop_rig_distinct main rig (main.length + 1) t main.toFinset pts0
    (fun j x hx => (mergeTable_spec rig cmi prio main t ht j x hx).2)
    mcs.1 mcs.2 (by rw [Prod.mk.eta]; exact hmcs) c hc

/-- Witness for the amended C5 theorem at a concrete three-node input:
node 0 (rig 0) is a follower of master node 2 (rig 1), and their rigs
differ. -/
theorem MergeGroup.build_child_rig_ne_master_rig_witness :
    (fun i => exampleRigsC5.getD i 0) 0 ≠ (fun i => exampleRigsC5.getD i 0) 2 := by
  have hs : exampleBuildC5.isSome = true := by decide
  refine MergeGroup.build_child_rig_ne_master_rig _ _ _ _ _ _ (Option.some_get hs).symm
    (2, ({1, 0} : Finset Nat)) ?_ 0 (by decide)
  show (2, ({1, 0} : Finset Nat)) ∈ [(2, ({1, 0} : Finset Nat))]
  exact List.mem_singleton.mpr rfl

/-- Claim C5 (counterexample): rig 0 registers two coincident main nodes
(0 and 1) and rig 1 registers node 2 at the same spot; `MergeGroup.build`
finalizes node 2 as master with BOTH 0 and 1 as followers, although they
belong to the same rig — a finalized master and its followers do not always
belong to pairwise distinct rigs. -/
theorem MergeGroup.build_same_rig_followers_cx :
    exampleBuildC5.map (fun res => res.1) = some [(2, ({1, 0} : Finset Nat))] ∧
    exampleRigsC5.getD 0 0 = exampleRigsC5.getD 1 0 ∧ (0 : Nat) ≠ 1 :=
  ⟨by decide, rfl, by decide⟩

/-- Claim C6 (confirmed): whenever `MergeGroup.build` finalizes a candidate
master, the master's final position is the arithmetic mean (centroid) of its
own registered position and the registered positions of all its pending
children, and every child's final position is set equal to the master's. -/
theorem MergeGroup.build_snaps_to_centroid
    (rig : Nat → Nat) (cmi : Nat → Nat → Bool) (prio : Nat → Nat → Int)
    (pts0 : Nat → Q3) (main : List Nat)
    (res : List (Nat × Finset Nat) × (Nat → Q3))
    (h : MergeGroup.build rig cmi prio pts0 main = some res) :
    ∀ mcs ∈ res.1,
      res.2 mcs.1 = ((mcs.2.card : ℚ) + 1)⁻¹ • (pts0 mcs.1 + mcs.2.sum pts0) ∧
      ∀ c ∈ mcs.2, res.2 c = res.2 mcs.1 := by
  rcases Option.map_eq_some'.mp h with ⟨t, ht, hres⟩
  subst hres
  intro mcs hmcs
  exact greedyLoop_centroid main pts0 (main.length + 1) t main.toFinset pts0
    (fun j x hx => List.mem_toFinset.mpr (mergeTable_spec rig cmi prio main t ht j x hx).1)
    (fun x _ => rfl) mcs.1 mcs.2 (by rw [Prod.mk.eta]; exact hmcs)

/-- Witness for the C6 theorem: nodes at (1,0,0) and (0,0,0); node 0 becomes
master of child 1 and both end at the centroid (1/2, 0, 0). -/
theorem MergeGroup.build_snaps_to_centroid_witness :
    ∃ res, exampleBuildC6 = some res ∧ (0, ({1} : Finset Nat)) ∈ res.1 ∧
      res.2 0 = ((1 : ℚ)/2, (0 : ℚ), (0 : ℚ)) ∧ res.2 1 = res.2 0 := by
  have hs : exampleBuildC6.isSome = true := by decide
  have hmem : (0, ({1} : Finset Nat)) ∈ (exampleBuildC6.get hs).1 := by
    show (0, ({1} : Finset Nat)) ∈ [(0, ({1} : Finset Nat))]
    exact List.mem_singleton.mpr rfl
  have h := MergeGroup.build_snaps_to_centroid _ _ _ _ _ _ (Option.some_get hs).symm
    (0, ({1} : Finset Nat)) hmem
  refine ⟨exampleBuildC6.get hs, (Option.some_get hs).symm, hmem, ?_, h.2 1 (by decide)⟩
  refine h.1.trans ?_
  simp only [examplePtsC6, Finset.sum_singleton, Finset.card_singleton]
  norm_num [Prod.ext_iff]

end Skin

namespace Skin

/-! ### Lemmas about the epsilon-closure -/

/-- Squared distance is symmetric. -/
theorem dist2_comm (p q : Q3) : dist2 p q = dist2 q p := by
  unfold dist2
  ring

/-- The proximity test is symmetric. -/
theorem near_symm (pts : List Q3) (eps : ℚ) (i j : Nat) :
    near pts eps i j = near pts eps j i := by
  unfold near
  rw [dist2_comm]

/-- Membership in a range query. -/
theorem findRange_mem (pts : List Q3) (eps : ℚ) (j k : Nat) :
    k ∈ findRange pts eps j ↔ k < pts.length ∧ near pts eps j k = true := by
  simp [findRange, Finset.mem_filter, Finset.mem_range]

/-- One epsilon step is symmetric. -/
theorem epsStep_symm (pts : List Q3) (eps : ℚ) :
    ∀ i j, epsStep pts eps i j → epsStep pts eps j i := by
  intro i j h
  refine ⟨h.2.1, h.1, ?_⟩
  rw [near_symm pts eps j i]
  exact h.2.2

/-- Chained proximity is symmetric. -/
theorem EpsReach_symm (pts : List Q3) (eps : ℚ) {i j : Nat}
    (h : EpsReach pts eps i j) : EpsReach pts eps j i :=
  Relation.ReflTransGen.symmetric (epsStep_symm pts eps) h

/-- Chained proximity stays inside the registered index range. -/
theorem EpsReach_lt (pts : List Q3) (eps : ℚ) {i j : Nat} (hi : i < pts.length)
    (h : EpsReach pts eps i j) : j < pts.length := by
  induction h with
  | refl => exact hi
  | tail _ hstep _ => exact hstep.2.1

/-- The closure loop never drops the current merge set. -/
theorem closeRange_mono (pts : List Q3) (eps : ℚ) :
    ∀ (fuel : Nat) (ms pending : Finset Nat), ms ⊆ closeRange pts eps fuel ms pending := by
  intro fuel
  induction fuel with
  | zero => intro ms p; exact subset_rfl
  | succ fuel ih =>
    intro ms p
    simp only [closeRange]
    by_cases hp : p = ∅
    · simp only [if_pos hp]
      exact subset_rfl
    · simp only [if_neg hp]
      exact Finset.Subset.trans Finset.subset_union_left (ih _ _)

/-- The closure loop stays inside the registered index range. -/
theorem closeRange_subset_range (pts : List Q3) (eps : ℚ) :
    ∀ (fuel : Nat) (ms pending : Finset Nat), ms ⊆ Finset.range pts.length →
      closeRange pts eps fuel ms pending ⊆ Finset.range pts.length := by
  intro fuel
  induction fuel with
  | zero => intro ms p h; exact h
  | succ fuel ih =>
    intro ms p h
    simp only [closeRange]
    by_cases hp : p = ∅
    · simp only [if_pos hp]; exact h
    · simp only [if_neg hp]
      refine ih _ _ (Finset.union_subset h ?_)
      intro x hx
      rcases Finset.mem_biUnion.mp hx with ⟨j, _, hxj⟩
      exact Finset.mem_range.mpr ((findRange_mem pts eps j x).mp hxj).1

/-- Soundness of the closure loop: everything it collects is chain-connected
to the seed. -/
theorem closeRange_reach (pts : List Q3) (eps : ℚ) (i : Nat) :
    ∀ (fuel : Nat) (ms pending : Finset Nat), ms ⊆ Finset.range pts.length →
      pending ⊆ ms → (∀ x ∈ ms, EpsReach pts eps i x) →
      ∀ y ∈ closeRange pts eps fuel ms pending, EpsReach pts eps i y := by
  intro fuel
  induction fuel with
  | zero => intro ms p _ _ hreach y hy; exact hreach y hy
  | succ fuel ih =>
    intro ms p hrange hpm hreach y hy
    simp only [closeRange] at hy
    by_cases hp : p = ∅
    · rw [if_pos hp] at hy
      exact hreach y hy
    · rw [if_neg hp] at hy
      refine ih _ _ ?_ ?_ ?_ y hy
      · refine Finset.union_subset hrange ?_
        intro x hx
        rcases Finset.mem_biUnion.mp hx with ⟨j, _, hxj⟩
        exact Finset.mem_range.mpr ((findRange_mem pts eps j x).mp hxj).1
      · intro x hx
        exact Finset.mem_union_right _ (Finset.mem_sdiff.mp hx).1
      · intro x hx
        rcases Finset.mem_union.mp hx with hx | hx
        · exact hreach x hx
        · rcases Finset.mem_biUnion.mp hx with ⟨j, hj, hxj⟩
          rcases (findRange_mem pts eps j x).mp hxj with ⟨hxlt, hnear⟩
          have hjlt : j < pts.length := Finset.mem_range.mp (hrange (hpm hj))
          exact Relation.ReflTransGen.tail (hreach j (hpm hj)) ⟨hjlt, hxlt, hnear⟩

/-- With empty pending the closure loop returns the merge set unchanged. -/
theorem closeRange_empty_pending (pts : List Q3) (eps : ℚ) (fuel : Nat) (ms : Finset Nat) :
    closeRange pts eps fuel ms ∅ = ms := by
  cases fuel with
  | zero => rfl
  | succ fuel => simp [closeRange]

end Skin

namespace Skin

/-- Completeness of the closure loop: with enough fuel, the result is closed
under single range queries. -/
theorem closeRange_closed (pts : List Q3) (eps : ℚ) :
    ∀ (fuel : Nat) (ms pending : Finset Nat),
      (Finset.range pts.length \ ms).card + 1 ≤ fuel →
      pending ⊆ ms → ms ⊆ Finset.range pts.length →
      (∀ x ∈ ms, x ∉ pending → findRange pts eps x ⊆ ms) →
      ∀ x ∈ closeRange pts eps fuel ms pending,
        findRange pts eps x ⊆ closeRange pts eps fuel ms pending := by
  intro fuel
  induction fuel with
  | zero =>
    intro ms p hfuel _ _ _
    omega
  | succ fuel ih =>
    intro ms p hfuel hpm hrange hclosed
    by_cases hp : p = ∅
    · -- the loop exits now; the merge set is already closed
      simp only [closeRange, if_pos hp]
      intro x hx
      refine hclosed x hx ?_
      rw [hp]
      exact Finset.not_mem_empty x
    · simp only [closeRange, if_neg hp]
      set added := p.biUnion (findRange pts eps) with hadded
      have haddedrange : added ⊆ Finset.range pts.length := by
        intro z hz
        rcases Finset.mem_biUnion.mp hz with ⟨j, _, hzj⟩
        exact Finset.mem_range.mpr ((findRange_mem pts eps j z).mp hzj).1
      have hms' : ms ∪ added ⊆ Finset.range pts.length := Finset.union_subset hrange haddedrange
      have hpm' : added \ ms ⊆ ms ∪ added :=
        fun z hz => Finset.mem_union_right _ (Finset.mem_sdiff.mp hz).1
      have hclosed' : ∀ x ∈ ms ∪ added, x ∉ added \ ms →
          findRange pts eps x ⊆ ms ∪ added := by
        intro x hx hxp
        by_cases hxm : x ∈ ms
        · by_cases hxinp : x ∈ p
          · intro z hz
            exact Finset.mem_union_right _ (Finset.mem_biUnion.mpr ⟨x, hxinp, hz⟩)
          · exact Finset.Subset.trans (hclosed x hxm hxinp) Finset.subset_union_left
        · rcases Finset.mem_union.mp hx with hx2 | hx2
          · exact absurd hx2 hxm
          · exact absurd (Finset.mem_sdiff.mpr ⟨hx2, hxm⟩) hxp
      by_cases hp' : added \ ms = ∅
      · -- next iteration exits immediately whatever the remaining fuel
        rw [hp']
        rw [closeRange_empty_pending]
        intro x hx
        exact hclosed' x hx (hp' ▸ Finset.not_mem_empty x)
      · -- strictly new element: the uncovered count drops, fuel suffices
        rcases Finset.nonempty_iff_ne_empty.mpr hp' with ⟨x0, hx0⟩
        rcases Finset.mem_sdiff.mp hx0 with ⟨hx0a, hx0m⟩
        have hssub : Finset.range pts.length \ (ms ∪ added) ⊂ Finset.range pts.length \ ms := by
          refine Finset.ssubset_iff_of_subset ?_ |>.mpr ?_
          · exact Finset.sdiff_subset_sdiff subset_rfl Finset.subset_union_left
          · exact ⟨x0, Finset.mem_sdiff.mpr ⟨haddedrange hx0a, hx0m⟩,
              fun h => (Finset.mem_sdiff.mp h).2 (Finset.mem_union_right _ hx0a)⟩
        have hfuel' : (Finset.range pts.length \ (ms ∪ added)).card + 1 ≤ fuel := by
          have h1 := Finset.card_lt_card hssub
          omega
        exact ih (ms ∪ added) (added \ ms) hfuel' hpm' hms' hclosed'

end Skin

namespace Skin

/-- Characterization of the epsilon-closure: starting from a single
registered index, the breadth-first loop of `NodeMerger.initialize` collects
exactly the nodes chain-connected to the seed. -/
theorem closeRange_spec (pts : List Q3) (eps : ℚ) (i : Nat) (hi : i < pts.length) :
    ∀ y, y ∈ closeRange pts eps (pts.length + 1) {i} {i} ↔ EpsReach pts eps i y := by
  have hirange : ({i} : Finset Nat) ⊆ Finset.range pts.length :=
    Finset.singleton_subset_iff.mpr (Finset.mem_range.mpr hi)
  have hfuel : (Finset.range pts.length \ {i}).card + 1 ≤ pts.length + 1 := by
    have h1 : (Finset.range pts.length \ {i}).card ≤ (Finset.range pts.length).card :=
      Finset.card_le_card (Finset.sdiff_subset)
    rw [Finset.card_range] at h1
    omega
  have hclosed := closeRange_closed pts eps (pts.length + 1) {i} {i} hfuel subset_rfl
    hirange (fun x hx hnx => absurd hx (by simpa using hnx))
  intro y
  constructor
  · intro hy
    exact closeRange_reach pts eps i (pts.length + 1) {i} {i} hirange subset_rfl
      (fun x hx => by
        rw [Finset.mem_singleton.mp hx]
        exact Relation.ReflTransGen.refl) y hy
  · intro hy
    induction hy with
    | refl =>
      exact closeRange_mono pts eps (pts.length + 1) {i} {i} (Finset.mem_singleton_self i)
    | tail hr hstep ihy =>
      refine hclosed _ ihy ?_
      exact (findRange_mem pts eps _ _).mpr ⟨hstep.2.1, hstep.2.2⟩

/-- Every cluster emitted by the outer loop is the full chain-connectivity
class of some registered seed. -/
theorem clustersGo_isComp (pts : List Q3) (eps : ℚ) :
    ∀ (l : List Nat) (processed : Finset Nat), (∀ x ∈ l, x < pts.length) →
      ∀ c ∈ clustersGo pts eps l processed,
        ∃ s, s < pts.length ∧ ∀ y, (y ∈ c ↔ EpsReach pts eps s y) := by
  intro l
  induction l with
  | nil => intro processed _ c hc; simp [clustersGo] at hc
  | cons i rest ih =>
    intro processed hl c hc
    have hi : i < pts.length := hl i (List.mem_cons_self _ _)
    by_cases hip : i ∈ processed
    · rw [clustersGo, if_pos hip] at hc
      exact ih processed (fun x hx => hl x (List.mem_cons_of_mem _ hx)) c hc
    · rw [clustersGo, if_neg hip] at hc
      rcases List.mem_cons.mp hc with hc | hc
      · exact ⟨i, hi, fun y => hc ▸ closeRange_spec pts eps i hi y⟩
      · exact ih _ (fun x hx => hl x (List.mem_cons_of_mem _ hx)) c hc

/-- Coverage: every index the outer loop visits ends up processed or inside
an emitted cluster. -/
theorem clustersGo_cover (pts : List Q3) (eps : ℚ) :
    ∀ (l : List Nat) (processed : Finset Nat), ∀ x ∈ l,
      x ∈ processed ∨ ∃ c ∈ clustersGo pts eps l processed, x ∈ c := by
  intro l
  induction l with
  | nil => intro processed x hx; cases hx
  | cons i rest ih =>
    intro processed x hx
    by_cases hip : i ∈ processed
    · rw [clustersGo, if_pos hip]
      rcases List.mem_cons.mp hx with hx | hx
      · exact Or.inl (hx ▸ hip)
      · exact ih processed x hx
    · rw [clustersGo, if_neg hip]
      rcases List.mem_cons.mp hx with hx | hx
      · refine Or.inr ⟨closeRange pts eps (pts.length + 1) {i} {i}, List.mem_cons_self _ _, ?_⟩
        rw [hx]
        exact closeRange_mono pts eps (pts.length + 1) {i} {i} (Finset.mem_singleton_self i)
      · rcases ih (processed ∪ closeRange pts eps (pts.length + 1) {i} {i}) x hx with h | h
        · rcases Finset.mem_union.mp h with h | h
          · exact Or.inl h
          · exact Or.inr ⟨_, List.mem_cons_self _ _, h⟩
        · rcases h with ⟨c, hc, hxc⟩
          exact Or.inr ⟨c, List.mem_cons_of_mem _ hc, hxc⟩

/-- Disjointness: as long as the processed set is closed under chained
proximity, the emitted clusters avoid it and are pairwise disjoint. -/
theorem clustersGo_disjoint (pts : List Q3) (eps : ℚ) :
    ∀ (l : List Nat) (processed : Finset Nat), (∀ x ∈ l, x < pts.length) →
      (∀ x ∈ processed, ∀ y, EpsReach pts eps x y → y ∈ processed) →
      (∀ c ∈ clustersGo pts eps l processed, ∀ x ∈ c, x ∉ processed) ∧
      (clustersGo pts eps l processed).Pairwise Disjoint := by
  intro l
  induction l with
  | nil => intro processed _ _; exact ⟨fun c hc => by simp [clustersGo] at hc, by simp [clustersGo]⟩
  | cons i rest ih =>
    intro processed hl hproc
    have hi : i < pts.length := hl i (List.mem_cons_self _ _)
    by_cases hip : i ∈ processed
    · rw [clustersGo, if_pos hip]
      exact ih processed (fun x hx => hl x (List.mem_cons_of_mem _ hx)) hproc
    · rw [clustersGo, if_neg hip]
      set c := closeRange pts eps (pts.length + 1) {i} {i} with hc
      have hcspec : ∀ y, y ∈ c ↔ EpsReach pts eps i y := closeRange_spec pts eps i hi
      -- the union of processed and the new class is still closed
      have hproc' : ∀ x ∈ processed ∪ c, ∀ y, EpsReach pts eps x y → y ∈ processed ∪ c := by
        intro x hx y hxy
        rcases Finset.mem_union.mp hx with hx | hx
        · exact Finset.mem_union_left _ (hproc x hx y hxy)
        · refine Finset.mem_union_right _ ?_
          exact (hcspec y).mpr (Relation.ReflTransGen.trans ((hcspec x).mp hx) hxy)
      have hrest := ih (processed ∪ c) (fun x hx => hl x (List.mem_cons_of_mem _ hx)) hproc'
      constructor
      · intro c' hc' x hxc'
        rcases List.mem_cons.mp hc' with hc' | hc'
        · -- members of the new class are unprocessed, by symmetry of reachability
          subst hc'
          intro hxp
          exact hip (hproc x hxp i (EpsReach_symm pts eps ((hcspec x).mp hxc')))
        · intro hxp
          exact hrest.1 c' hc' x hxc' (Finset.mem_union_left _ hxp)
      · refine List.pairwise_cons.mpr ⟨?_, hrest.2⟩
        intro c' hc'
        refine Finset.disjoint_left.mpr ?_
        intro a hac hac'
        exact hrest.1 c' hc' a hac' (Finset.mem_union_right _ hac)

end Skin

namespace Skin

/-- Claim C3 (confirmed): after `NodeMerger` clustering, (1) any two
registered nodes connected by a chain of epsilon steps lie in one common
cluster; (2) the clusters are pairwise disjoint; (3) each cluster is closed
under chained proximity, so no cluster contains a node of another cluster's
closure; (4) every registered node lies in some cluster; and (5) clusters
contain only registered nodes — together: the clusters partition the
registered nodes along transitive epsilon-proximity. -/
theorem NodeMerger.clusters_partition (pts : List Q3) (eps : ℚ) :
    (∀ i j, EpsReach pts eps i j → i < pts.length →
        ∃ c ∈ NodeMerger.clusters pts eps, i ∈ c ∧ j ∈ c) ∧
    (NodeMerger.clusters pts eps).Pairwise Disjoint ∧
    (∀ c ∈ NodeMerger.clusters pts eps, ∀ x ∈ c, ∀ y, EpsReach pts eps x y → y ∈ c) ∧
    (∀ i, i < pts.length → ∃ c ∈ NodeMerger.clusters pts eps, i ∈ c) ∧
    (∀ c ∈ NodeMerger.clusters pts eps, ∀ x ∈ c, x < pts.length) := by
  have hrange : ∀ x ∈ List.range pts.length, x < pts.length := fun x hx => List.mem_range.mp hx
  have hcomp := clustersGo_isComp pts eps (List.range pts.length) ∅ hrange
  have hcover : ∀ i, i < pts.length → ∃ c ∈ NodeMerger.clusters pts eps, i ∈ c := by
    intro i hi
    rcases clustersGo_cover pts eps (List.range pts.length) ∅ i (List.mem_range.mpr hi) with h | h
    · exact absurd h (Finset.not_mem_empty i)
    · exact h
  have hclosed : ∀ c ∈ NodeMerger.clusters pts eps, ∀ x ∈ c, ∀ y,
      EpsReach pts eps x y → y ∈ c := by
    intro c hc x hx y hxy
    rcases hcomp c hc with ⟨s, _, hs⟩
    exact (hs y).mpr (Relation.ReflTransGen.trans ((hs x).mp hx) hxy)
  refine ⟨?_, ?_, hclosed, hcover, ?_⟩
  · intro i j hij hi
    rcases hcover i hi with ⟨c, hc, hic⟩
    exact ⟨c, hc, hic, hclosed c hc i hic j hij⟩
  · exact (clustersGo_disjoint pts eps (List.range pts.length) ∅ hrange
      (fun x hx => absurd hx (Finset.not_mem_empty x))).2
  · intro c hc x hx
    rcases hcomp c hc with ⟨s, hslt, hs⟩
    exact EpsReach_lt pts eps hslt ((hs x).mp hx)

/-- Witness for the C3 theorem: three points chained 7e-6 apart end up in one
cluster although the endpoints are farther than epsilon from each other. -/
theorem NodeMerger.clusters_partition_witness :
    ∃ c ∈ NodeMerger.clusters examplePtsC3 NodeMerger.epsilon, 0 ∈ c ∧ 2 ∈ c := by
  have h01 : epsStep examplePtsC3 NodeMerger.epsilon 0 1 := by
    refine ⟨by norm_num [examplePtsC3], by norm_num [examplePtsC3], ?_⟩
    simp only [near, decide_eq_true_eq]
    norm_num [dist2, examplePtsC3, NodeMerger.epsilon]
  have h12 : epsStep examplePtsC3 NodeMerger.epsilon 1 2 := by
    refine ⟨by norm_num [examplePtsC3], by norm_num [examplePtsC3], ?_⟩
    simp only [near, decide_eq_true_eq]
    norm_num [dist2, examplePtsC3, NodeMerger.epsilon]
  have hreach : EpsReach examplePtsC3 NodeMerger.epsilon 0 2 :=
    Relation.ReflTransGen.tail (Relation.ReflTransGen.single h01) h12
  exact (NodeMerger.clusters_partition examplePtsC3 NodeMerger.epsilon).1 0 2 hreach
    (by norm_num [examplePtsC3])

end Skin

namespace Skin

/-- When the scan succeeds, the result is a class of one of the scanned
members (or the seed) and is a subclass of every class it walked past. -/
theorem scanGroupClass_ok {C : Type} (sub : C → C → Bool)
    (hrefl : ∀ a, sub a a = true)
    (htrans : ∀ a b c, sub a b = true → sub b c = true → sub a c = true) :
    ∀ (rest : List (GroupClassNode C)) (gc g : C),
      scanGroupClass sub gc rest = .ok g →
      (g = gc ∨ ∃ m ∈ rest, g = m.cls) ∧ sub g gc = true ∧
      ∀ m ∈ rest, sub g m.cls = true := by
  intro rest
  induction rest with
  | nil =>
    intro gc g h
    simp only [scanGroupClass, Except.ok.injEq] at h
    subst h
    exact ⟨Or.inl rfl, hrefl _, fun m hm => absurd hm (List.not_mem_nil m)⟩
  | cons item rest ih =>
    intro gc g h
    simp only [scanGroupClass] at h
    by_cases h1 : sub item.cls gc = true
    · rw [if_pos h1] at h
      rcases ih item.cls g h with ⟨hmem, hsub, hall⟩
      refine ⟨?_, htrans g item.cls gc hsub h1, ?_⟩
      · rcases hmem with hmem | ⟨m, hm, hmem⟩
        · exact Or.inr ⟨item, List.mem_cons_self _ _, hmem⟩
        · exact Or.inr ⟨m, List.mem_cons_of_mem _ hm, hmem⟩
      · intro m hm
        rcases List.mem_cons.mp hm with hm | hm
        · rw [hm]; exact hsub
        · exact hall m hm
    · rw [if_neg h1] at h
      by_cases h2 : sub gc item.cls = true
      · rw [if_pos h2] at h
        rcases ih gc g h with ⟨hmem, hsub, hall⟩
        refine ⟨?_, hsub, ?_⟩
        · rcases hmem with hmem | ⟨m, hm, hmem⟩
          · exact Or.inl hmem
          · exact Or.inr ⟨m, List.mem_cons_of_mem _ hm, hmem⟩
        · intro m hm
          rcases List.mem_cons.mp hm with hm | hm
          · rw [hm]; exact htrans g gc item.cls hsub h2
          · exact hall m hm
      · rw [if_neg h2] at h
        cases h
  
/-- When the scan fails, the error carries the name, base bone and class of
one of the scanned members, whose class is incomparable with the recorded
running class. -/
theorem scanGroupClass_error {C : Type} (sub : C → C → Bool) :
    ∀ (rest : List (GroupClassNode C)) (gc : C) (e : GroupClassConflict C),
      scanGroupClass sub gc rest = .error e →
      (∃ item ∈ rest, e.name = item.name ∧ e.base_bone = item.base_bone ∧ e.cls = item.cls) ∧
      sub e.cls e.group_class = false ∧ sub e.group_class e.cls = false := by
  intro rest
  induction rest with
  | nil => intro gc e h; cases h
  | cons item rest ih =>
    intro gc e h
    simp only [scanGroupClass] at h
    by_cases h1 : sub item.cls gc = true
    · rw [if_pos h1] at h
      rcases ih item.cls e h with ⟨⟨m, hm, hfields⟩, hince⟩
      exact ⟨⟨m, List.mem_cons_of_mem _ hm, hfields⟩, hince⟩
    · rw [if_neg h1] at h
      by_cases h2 : sub gc item.cls = true
      · rw [if_pos h2] at h
        rcases ih gc e h with ⟨⟨m, hm, hfields⟩, hince⟩
        exact ⟨⟨m, List.mem_cons_of_mem _ hm, hfields⟩, hince⟩
      · rw [if_neg h2] at h
        simp only [Except.error.injEq] at h
        subst h
        exact ⟨⟨item, List.mem_cons_self _ _, rfl, rfl, rfl⟩,
          Bool.eq_false_iff.mpr h1, Bool.eq_false_iff.mpr h2⟩

end Skin

namespace Skin

/-- Helper for C4, at the level of an already-sorted member list: if it
contains two members with incomparable classes and no member's class is a
common subclass of both, the scan raises the error, whose data comes from one
scanned member. -/
theorem groupClassOf_conflict_sorted {C : Type} (sub : C → C → Bool)
    (hrefl : ∀ a, sub a a = true)
    (htrans : ∀ a b c, sub a b = true → sub b c = true → sub a c = true)
    (first : GroupClassNode C) (rest : List (GroupClassNode C))
    (p q : GroupClassNode C)
    (hp : p ∈ first :: rest) (hq : q ∈ first :: rest)
    (hpq : sub p.cls q.cls = false) (hqp : sub q.cls p.cls = false)
    (hno : ∀ r ∈ first :: rest, ¬(sub r.cls p.cls = true ∧ sub r.cls q.cls = true)) :
    ∃ e, groupClassOf sub first rest = .error e ∧
      (∃ item ∈ rest, e.name = item.name ∧ e.base_bone = item.base_bone ∧ e.cls = item.cls) ∧
      sub e.cls e.group_class = false ∧ sub e.group_class e.cls = false ∧
      ∀ cn : C → String, ∃ s, conflictMessage cn e = s ++ e.base_bone := by
  cases hres : groupClassOf sub first rest with
  | ok g =>
    exfalso
    rcases scanGroupClass_ok sub hrefl htrans rest first.cls g hres with ⟨hmem, hsub, hall⟩
    have hgm : ∃ m ∈ first :: rest, g = m.cls := by
      rcases hmem with hmem | ⟨m, hm, hmem⟩
      · exact ⟨first, List.mem_cons_self _ _, hmem⟩
      · exact ⟨m, List.mem_cons_of_mem _ hm, hmem⟩
    have hsuball : ∀ m ∈ first :: rest, sub g m.cls = true := by
      intro m hm
      rcases List.mem_cons.mp hm with hm | hm
      · rw [hm]; exact hsub
      · exact hall m hm
    rcases hgm with ⟨m, hm, hgm⟩
    exact hno m hm ⟨hgm ▸ hsuball p hp, hgm ▸ hsuball q hq⟩
  | error e =>
    rcases scanGroupClass_error sub rest first.cls e hres with ⟨hitem, hinc1, hinc2⟩
    exact ⟨e, rfl, hitem, hinc1, hinc2, fun cn =>
      ⟨"Group class conflict: " ++ cn e.group_class ++ " and " ++ cn e.cls ++
        " from " ++ e.name ++ " of ", by simp [conflictMessage, String.append_assoc]⟩⟩

/-- Inserting an element permutes with consing it. -/
theorem orderedInsertName_perm {C : Type} (x : GroupClassNode C) :
    ∀ l : List (GroupClassNode C), (orderedInsertName x l).Perm (x :: l) := by
  intro l
  induction l with
  | nil => exact List.Perm.refl _
  | cons y ys ih =>
    unfold orderedInsertName
    by_cases h : nameLe x.name y.name = true
    · rw [if_pos h]
    · rw [if_neg h]
      exact (ih.cons y).trans (List.Perm.swap x y ys)

/-- The name sort permutes the cluster members. -/
theorem sortByName_perm {C : Type} :
    ∀ cluster : List (GroupClassNode C), (sortByName cluster).Perm cluster := by
  intro cluster
  induction cluster with
  | nil => exact List.Perm.refl _
  | cons x xs ih =>
    unfold sortByName
    exact (orderedInsertName_perm x (sortByName xs)).trans (ih.cons x)

/-- Claim C4 (amended): if a cluster contains two members with incomparable
group classes AND no member's class is a common subclass of both, the
group-class resolution of `NodeMerger.initialize` (sort by name, then scan)
raises the `MetarigError`; the error identifies the two incomparable classes
and the name and rig base bone of the LATER conflicting member (the message
ends in that single base bone — the earlier rig's base bone is not part of
the message data). -/
theorem groupClassOfCluster_conflict {C : Type} (sub : C → C → Bool)
    (hrefl : ∀ a, sub a a = true)
    (htrans : ∀ a b c, sub a b = true → sub b c = true → sub a c = true)
    (cluster : List (GroupClassNode C)) (p q : GroupClassNode C)
    (hp : p ∈ cluster) (hq : q ∈ cluster)
    (hpq : sub p.cls q.cls = false) (hqp : sub q.cls p.cls = false)
    (hno : ∀ r ∈ cluster, ¬(sub r.cls p.cls = true ∧ sub r.cls q.cls = true)) :
    ∃ e, groupClassOfCluster sub cluster = some (.error e) ∧
      (∃ item ∈ cluster, e.name = item.name ∧ e.base_bone = item.base_bone ∧
        e.cls = item.cls) ∧
      sub e.cls e.group_class = false ∧ sub e.group_class e.cls = false ∧
      ∀ cn : C → String, ∃ s, conflictMessage cn e = s ++ e.base_bone := by
  have hperm := sortByName_perm cluster
  cases hsort : sortByName cluster with
  | nil =>
    exfalso
    rw [hsort] at hperm
    rw [hperm.symm.eq_nil] at hp
    cases hp
  | cons first rest =>
    rw [hsort] at hperm
    have hp2 : p ∈ first :: rest := hperm.mem_iff.mpr hp
    have hq2 : q ∈ first :: rest := hperm.mem_iff.mpr hq
    have hno2 : ∀ r ∈ first :: rest, ¬(sub r.cls p.cls = true ∧ sub r.cls q.cls = true) :=
      fun r hr => hno r (hperm.mem_iff.mp hr)
    rcases groupClassOf_conflict_sorted sub hrefl htrans first rest p q hp2 hq2 hpq hqp hno2
      with ⟨e, heq, ⟨item, hitem, hfields⟩, hinc1, hinc2, hmsg⟩
    refine ⟨e, ?_, ⟨item, hperm.mem_iff.mp (List.mem_cons_of_mem _ hitem), hfields⟩,
      hinc1, hinc2, hmsg⟩
    unfold groupClassOfCluster
    rw [hsort]
    simp only [heq]

/-- Witness for the amended C4 theorem: the two-member conflict cluster
(classes `A` and `B`, no diamond member), submitted in unsorted order, with
every hypothesis checked by evaluation. -/
theorem groupClassOfCluster_conflict_witness :
    ∃ e, groupClassOfCluster demoSub [demoNodeB, demoNodeA] = some (.error e) ∧
      (∃ item ∈ [demoNodeB, demoNodeA], e.name = item.name ∧
        e.base_bone = item.base_bone ∧ e.cls = item.cls) ∧
      demoSub e.cls e.group_class = false ∧ demoSub e.group_class e.cls = false ∧
      ∀ cn : DemoClass → String, ∃ s, conflictMessage cn e = s ++ e.base_bone :=
  groupClassOfCluster_conflict demoSub (by decide) (by decide) [demoNodeB, demoNodeA]
    demoNodeA demoNodeB (by decide) (by decide) (by decide) (by decide) (by decide)

/-- Claim C4 (counterexample): both halves of the claim fail on the code.
First, a cluster of `node_1_a` (class `A`), `node_2_d` (class `D`, a diamond
deriving from both `A` and `B`) and `node_3_b` (class `B`) sorts by name to
`[node_1_a, node_2_d, node_3_b]`, and the scan then completes with NO error
(`ok D`) although two members have incomparable classes.  Second, in the
plain two-member conflict the error is raised, but its message mentions only
the later rig's base bone `bone_B`; the base bone `bone_A` of the other
conflicting rig appears nowhere in it. -/
theorem groupClassOfCluster_conflict_cx :
    (sortByName [demoNodeB, demoNodeA, demoNodeD] = [demoNodeA, demoNodeD, demoNodeB] ∧
      groupClassOfCluster demoSub [demoNodeB, demoNodeA, demoNodeD]
        = some (.ok DemoClass.D) ∧
      demoSub DemoClass.A DemoClass.B = false ∧ demoSub DemoClass.B DemoClass.A = false) ∧
    (sortByName [demoNodeB, demoNodeA] = [demoNodeA, demoNodeB] ∧
      groupClassOfCluster demoSub [demoNodeB, demoNodeA]
        = some (.error ⟨DemoClass.A, DemoClass.B, "node_3_b", "bone_B"⟩) ∧
      containsSub ("bone_A".toList)
        ((conflictMessage demoName ⟨DemoClass.A, DemoClass.B, "node_3_b", "bone_B"⟩).toList)
        = false ∧
      containsSub ("bone_B".toList)
        ((conflictMessage demoName ⟨DemoClass.A, DemoClass.B, "node_3_b", "bone_B"⟩).toList)
        = true) := by
  refine ⟨⟨by decide, rfl, rfl, rfl⟩, ⟨by decide, rfl, ?_, ?_⟩⟩
  · decide
  · decide

end Skin

namespace Skin

/-- Python `max` with constant keys returns the first element. -/
theorem pyMax_const_key {α β : Type} [LinearOrder β] (key : α → β) (hd : α) (tl : List α)
    (hconst : ∀ x ∈ tl, key x = key hd) :
    pyMax key (hd :: tl) = some hd := by
  have hgen : ∀ (xs : List α) (b : α), (∀ x ∈ xs, ¬ key b < key x) →
      xs.foldl (fun b a => if key b < key a then a else b) b = b := by
    intro xs
    induction xs with
    | nil => intro b _; rfl
    | cons a xs ih =>
      intro b hb
      simp only [List.foldl_cons, if_neg (hb a (List.mem_cons_self _ _))]
      exact ih b (fun x hx => hb x (List.mem_cons_of_mem _ hx))
  simp only [pyMax, Option.some.injEq]
  exact hgen tl hd (fun x hx => by rw [hconst x hx]; exact lt_irrefl _)

/-- With pairwise distinct keys, building a Python dict just pairs each value
with its key in order. -/
theorem dictOf_nodup {K V : Type} [DecidableEq K] (key : V → K) (vs : List V)
    (hnodup : (vs.map key).Nodup) :
    dictOf key vs = vs.map (fun v => (key v, v)) := by
  have hgen : ∀ (l : List V) (acc : List (K × V)),
      (∀ v ∈ l, key v ∉ acc.map Prod.fst) → (l.map key).Nodup →
      l.foldl (fun acc v => dictInsert acc (key v) v) acc = acc ++ l.map (fun v => (key v, v)) := by
    intro l
    induction l with
    | nil => intro acc _ _; simp
    | cons v l ih =>
      intro acc hacc hnd
      have hnotin : ¬ acc.any (fun kv => kv.1 = key v) = true := by
        intro hany
        rcases List.any_eq_true.mp hany with ⟨kv, hkv, heq⟩
        exact hacc v (List.mem_cons_self _ _)
          (List.mem_map.mpr ⟨kv, hkv, of_decide_eq_true heq⟩)
      rw [List.foldl_cons,
        show dictInsert acc (key v) v = acc ++ [(key v, v)] from by
          simp only [dictInsert, if_neg hnotin],
        ih (acc ++ [(key v, v)]) ?_ ?_]
      · simp
      · intro v' hv'
        simp only [List.map_append, List.mem_append, List.map_cons, List.map_nil,
          List.mem_singleton]
        rintro (h | h)
        · exact hacc v' (List.mem_cons_of_mem _ hv') h
        · simp only [List.map_cons, List.nodup_cons] at hnd
          exact hnd.1 (h ▸ List.mem_map.mpr ⟨v', hv', rfl⟩)
      · simp only [List.map_cons, List.nodup_cons] at hnd
        exact hnd.2
  simpa using hgen vs [] (by simp) hnodup

/-- Mirror siblings of a node whose base all siblings share, with distinct
name splits: the whole sibling list. -/
theorem mirror_siblings_all (self : ControlBoneNode) (siblings : List ControlBoneNode)
    (hbase : ∀ s ∈ siblings, s.base = self.base)
    (hnodup : (siblings.map ControlBoneNode.name_split).Nodup) :
    ControlBoneNode.mirror_siblings self siblings = siblings := by
  unfold ControlBoneNode.mirror_siblings
  have hfilter : siblings.filter (fun nd => nd.base = self.base) = siblings :=
    List.filter_eq_self.mpr (fun a ha => decide_eq_true (hbase a ha))
  rw [hfilter, dictOf_nodup _ _ hnodup, List.map_map]
  simp [Function.comp_def]

/-- Claim C7 (amended): when all merged siblings share the master's base name
and icon tier and have pairwise distinct name splits, the resolved size is
the plain average of all sibling sizes, and it agrees with the spec's formula
(average over the master's top-icon mirror siblings).  In general the code
instead averages over ALL mirror siblings of the first highest-icon sibling,
whatever their tiers and base name. -/
theorem ControlBoneNode.master_size_same_base_icon
    (master : ControlBoneNode) (rest : List ControlBoneNode)
    (hbase : ∀ s ∈ master :: rest, s.base = master.base)
    (hicon : ∀ s ∈ master :: rest, s.icon = master.icon)
    (hnodup : ((master :: rest).map ControlBoneNode.name_split).Nodup) :
    ControlBoneNode.master_size (master :: rest)
        = ((master :: rest).map (fun nd => nd.size)).sum / (((master :: rest).length : ℚ)) ∧
    spec_master_size master (master :: rest)
        = ControlBoneNode.master_size (master :: rest) := by
  have hmax : pyMax (fun nd => nd.icon) (master :: rest) = some master :=
    pyMax_const_key _ master rest (fun x hx => hicon x (List.mem_cons_of_mem _ hx))
  have hmirror : ControlBoneNode.mirror_siblings master (master :: rest) = master :: rest :=
    mirror_siblings_all master (master :: rest) hbase hnodup
  have hcode : ControlBoneNode.master_size (master :: rest)
      = ((master :: rest).map (fun nd => nd.size)).sum / (((master :: rest).length : ℚ)) := by
    unfold ControlBoneNode.master_size
    rw [hmax]
    simp only [hmirror]
  refine ⟨hcode, ?_⟩
  have hmirror2 : spec_mirror master (master :: rest) = master :: rest := by
    unfold spec_mirror
    exact List.filter_eq_self.mpr (fun a ha => decide_eq_true (hbase a ha))
  have htop : spec_top_icon (master :: rest) = master.icon := by
    unfold spec_top_icon
    rw [hmax]
  have hsel : spec_sel master (master :: rest) = master :: rest := by
    unfold spec_sel
    rw [hmirror2, htop]
    exact List.filter_eq_self.mpr (fun a ha => beq_iff_eq.mpr (hicon a ha))
  unfold spec_master_size
  rw [hsel, hcode]

/-- Witness for the amended C7 theorem: three mutually mirrored top-tier
siblings of sizes 1, 1 and 2 resolve to size 4/3, both in the code and in
the spec's formula. -/
theorem ControlBoneNode.master_size_witness :
    ControlBoneNode.master_size [sizeNodeW1, sizeNodeW2, sizeNodeW3] = 4 / 3 ∧
    spec_master_size sizeNodeW1 [sizeNodeW1, sizeNodeW2, sizeNodeW3] = 4 / 3 := by
  have h := ControlBoneNode.master_size_same_base_icon sizeNodeW1 [sizeNodeW2, sizeNodeW3]
    (by decide) (by decide) (by decide)
  have hval : (([sizeNodeW1, sizeNodeW2, sizeNodeW3].map (fun nd => nd.size)).sum)
      / ((([sizeNodeW1, sizeNodeW2, sizeNodeW3] : List ControlBoneNode).length : ℚ)) = 4 / 3 := by
    norm_num [sizeNodeW1, sizeNodeW2, sizeNodeW3]
  exact ⟨h.1.trans hval, h.2.trans (h.1.trans hval)⟩

/-- Claim C7 (counterexample): master `a` (icon TWEAK, size 10) merged with
`b` (icon FREE, size 1) and the latter's mirror (base `b`, icon TWEAK,
size 3).  The code resolves size 2 — the average over BOTH mirror siblings of
the highest-icon node, ignoring their differing tiers and the master's own
mirror set — while the claim's formula (average of the master's
highest-icon-tier mirror siblings) gives 10. -/
theorem ControlBoneNode.master_size_cx :
    ControlBoneNode.master_size [sizeNodeM, sizeNodeB, sizeNodeB2] = 2 ∧
    spec_master_size sizeNodeM [sizeNodeM, sizeNodeB, sizeNodeB2] = 10 ∧
    (2 : ℚ) ≠ 10 := by
  refine ⟨?_, ?_, by norm_num⟩
  · have hmax : pyMax (fun nd => nd.icon) [sizeNodeM, sizeNodeB, sizeNodeB2]
        = some sizeNodeB := by decide
    have hbm : ControlBoneNode.mirror_siblings sizeNodeB [sizeNodeM, sizeNodeB, sizeNodeB2]
        = [sizeNodeB, sizeNodeB2] := by decide
    unfold ControlBoneNode.master_size
    rw [hmax]
    simp only [hbm]
    norm_num [sizeNodeB, sizeNodeB2]
  · have hsel : spec_sel sizeNodeM [sizeNodeM, sizeNodeB, sizeNodeB2] = [sizeNodeM] := by
      decide
    unfold spec_master_size
    rw [hsel]
    norm_num [sizeNodeM]

/-- Claim C8 (confirmed): the master's rotation is the normalized sum of the
individually resolved rotations of its mirror siblings; for any normalizing
function the result is invariant under permutation of the sibling
registration order (given the distinct name splits the code's own assertion
requires). -/
theorem ControlBoneNode.rotation_sum_perm
    (master : ControlBoneNode) (sibs1 sibs2 : List ControlBoneNode)
    (hperm : sibs1.Perm sibs2)
    (hnodup : (sibs1.map ControlBoneNode.name_split).Nodup) :
    ∀ normalize : Quat → Quat,
      normalize (ControlBoneNode.rotation_sum master sibs1)
        = normalize (ControlBoneNode.rotation_sum master sibs2) := by
  intro normalize
  refine congrArg normalize ?_
  unfold ControlBoneNode.rotation_sum
  have hpf : (sibs1.filter (fun nd => nd.base = master.base)).Perm
      (sibs2.filter (fun nd => nd.base = master.base)) := hperm.filter _
  have hnd1 : ((sibs1.filter (fun nd => nd.base = master.base)).map
      ControlBoneNode.name_split).Nodup :=
    ((List.filter_sublist _).map _).nodup hnodup
  have hnd2 : ((sibs2.filter (fun nd => nd.base = master.base)).map
      ControlBoneNode.name_split).Nodup :=
    (hpf.map _).nodup_iff.mp hnd1
  unfold ControlBoneNode.mirror_siblings
  rw [dictOf_nodup _ _ hnd1, dictOf_nodup _ _ hnd2]
  refine List.Perm.sum_eq ?_
  exact ((hpf.map _).map _).map _

/-- Witness for the C8 theorem: a mirrored pair contributed in both orders
yields the same rotation sum. -/
theorem ControlBoneNode.rotation_sum_perm_witness :
    ControlBoneNode.rotation_sum rotNodeL [rotNodeL, rotNodeR]
      = ControlBoneNode.rotation_sum rotNodeL [rotNodeR, rotNodeL] :=
  ControlBoneNode.rotation_sum_perm rotNodeL [rotNodeL, rotNodeR] [rotNodeR, rotNodeL]
    (by decide) (by decide) (fun q => q)

end Skin

namespace Skin

/-! ### The compositor value equality is an equivalence -/

/-- A key outside both dicts looks up to `none` on each side. -/
theorem dictLookup_eq_none {K V : Type} [DecidableEq K] (l : List (K × V)) (k : K)
    (h : k ∉ l.map Prod.fst) : dictLookup l k = none := by
  unfold dictLookup
  rw [List.find?_eq_none.mpr]
  · rfl
  · intro kv hkv hdec
    exact h (List.mem_map.mpr ⟨kv, hkv, of_decide_eq_true hdec⟩)

/-- Dict equality tested on the finitely many stored keys extends to all
keys. -/
theorem dictBeq_iff {K V : Type} [DecidableEq K] (f : V → V → Bool)
    (l1 l2 : List (K × V)) :
    dictBeq f l1 l2 = true ↔
      ∀ k, optBeq f (dictLookup l1 k) (dictLookup l2 k) = true := by
  constructor
  · intro h k
    by_cases hk : k ∈ l1.map Prod.fst ++ l2.map Prod.fst
    · exact List.all_eq_true.mp h k hk
    · rw [List.mem_append] at hk
      push_neg at hk
      rw [dictLookup_eq_none l1 k hk.1, dictLookup_eq_none l2 k hk.2]
      rfl
  · intro h
    exact List.all_eq_true.mpr (fun k _ => h k)

/-- Reflexivity transfer for optional values. -/
theorem optBeq_refl {V : Type} (f : V → V → Bool) (hf : ∀ a, f a a = true) :
    ∀ o : Option V, optBeq f o o = true := by
  intro o
  cases o with
  | none => rfl
  | some a => exact hf a

/-- Symmetry transfer for optional values. -/
theorem optBeq_symm {V : Type} (f : V → V → Bool)
    (hf : ∀ a b, f a b = true → f b a = true) :
    ∀ o1 o2 : Option V, optBeq f o1 o2 = true → optBeq f o2 o1 = true := by
  intro o1 o2 h
  cases o1 with
  | none =>
    cases o2 with
    | none => rfl
    | some b => exact Bool.noConfusion h
  | some a =>
    cases o2 with
    | none => exact Bool.noConfusion h
    | some b => exact hf a b h

/-- Transitivity transfer for optional values. -/
theorem optBeq_trans {V : Type} (f : V → V → Bool)
    (hf : ∀ a b c, f a b = true → f b c = true → f a c = true) :
    ∀ o1 o2 o3 : Option V, optBeq f o1 o2 = true → optBeq f o2 o3 = true →
      optBeq f o1 o3 = true := by
  intro o1 o2 o3 h1 h2
  cases o1 with
  | none =>
    cases o2 with
    | none => exact h2
    | some b => exact Bool.noConfusion h1
  | some a =>
    cases o2 with
    | none => exact Bool.noConfusion h1
    | some b =>
      cases o3 with
      | none => exact Bool.noConfusion h2
      | some c => exact hf a b c h1 h2

/-- Reflexivity transfer for dicts. -/
theorem dictBeq_refl {K V : Type} [DecidableEq K] (f : V → V → Bool)
    (hf : ∀ a, f a a = true) (l : List (K × V)) : dictBeq f l l = true :=
  (dictBeq_iff f l l).mpr (fun k => optBeq_refl f hf _)

/-- Symmetry transfer for dicts. -/
theorem dictBeq_symm {K V : Type} [DecidableEq K] (f : V → V → Bool)
    (hf : ∀ a b, f a b = true → f b a = true) (l1 l2 : List (K × V))
    (h : dictBeq f l1 l2 = true) : dictBeq f l2 l1 = true :=
  (dictBeq_iff f l2 l1).mpr (fun k => optBeq_symm f hf _ _ ((dictBeq_iff f l1 l2).mp h k))

/-- Transitivity transfer for dicts. -/
theorem dictBeq_trans {K V : Type} [DecidableEq K] (f : V → V → Bool)
    (hf : ∀ a b c, f a b = true → f b c = true → f a c = true)
    (l1 l2 l3 : List (K × V)) (h1 : dictBeq f l1 l2 = true) (h2 : dictBeq f l2 l3 = true) :
    dictBeq f l1 l3 = true :=
  (dictBeq_iff f l1 l3).mpr (fun k => optBeq_trans f hf _ _ _
    ((dictBeq_iff f l1 l2).mp h1 k) ((dictBeq_iff f l2 l3).mp h2 k))

/-- Reflexivity transfer for elementwise list equality. -/
theorem listBeq_refl {V : Type} (f : V → V → Bool) (hf : ∀ a, f a a = true) :
    ∀ l : List V, listBeq f l l = true := by
  intro l
  induction l with
  | nil => rfl
  | cons a l ih => simp only [listBeq, Bool.and_eq_true]; exact ⟨hf a, ih⟩

/-- Symmetry transfer for elementwise list equality. -/
theorem listBeq_symm {V : Type} (f : V → V → Bool)
    (hf : ∀ a b, f a b = true → f b a = true) :
    ∀ l1 l2 : List V, listBeq f l1 l2 = true → listBeq f l2 l1 = true := by
  intro l1
  induction l1 with
  | nil => intro l2 h; cases l2 with
    | nil => rfl
    | cons b bs => exact absurd h (by simp [listBeq])
  | cons a as ih =>
    intro l2 h
    cases l2 with
    | nil => exact absurd h (by simp [listBeq])
    | cons b bs =>
      simp only [listBeq, Bool.and_eq_true] at h ⊢
      exact ⟨hf _ _ h.1, ih bs h.2⟩

/-- Transitivity transfer for elementwise list equality. -/
theorem listBeq_trans {V : Type} (f : V → V → Bool)
    (hf : ∀ a b c, f a b = true → f b c = true → f a c = true) :
    ∀ l1 l2 l3 : List V, listBeq f l1 l2 = true → listBeq f l2 l3 = true →
      listBeq f l1 l3 = true := by
  intro l1
  induction l1 with
  | nil => intro l2 l3 h1 h2; cases l2 with
    | nil => exact h2
    | cons b bs => exact absurd h1 (by simp [listBeq])
  | cons a as ih =>
    intro l2 l3 h1 h2
    cases l2 with
    | nil => exact absurd h1 (by simp [listBeq])
    | cons b bs =>
      cases l3 with
      | nil => exact absurd h2 (by simp [listBeq])
      | cons c cs =>
        simp only [listBeq, Bool.and_eq_true] at h1 h2 ⊢
        exact ⟨hf _ _ _ h1.1 h2.1, ih bs cs h1.2 h2.2⟩

end Skin

namespace Skin

/-- `driverVarsBeq` is reflexive. -/
theorem driverVarsBeq_refl (a : DriverVars) : driverVarsBeq a a = true :=
  dictBeq_refl _ (fun x => beq_self_eq_true x) a

/-- `driverVarsBeq` is symmetric. -/
theorem driverVarsBeq_symm (a b : DriverVars) (h : driverVarsBeq a b = true) :
    driverVarsBeq b a = true :=
  dictBeq_symm _ (fun x y hxy => by rw [eq_of_beq hxy]; exact beq_self_eq_true y) a b h

/-- `driverVarsBeq` is transitive. -/
theorem driverVarsBeq_trans (a b c : DriverVars) (h1 : driverVarsBeq a b = true)
    (h2 : driverVarsBeq b c = true) : driverVarsBeq a c = true :=
  dictBeq_trans _ (fun x y z hxy hyz => by rw [eq_of_beq hxy, eq_of_beq hyz]; exact beq_self_eq_true z)
    a b c h1 h2

/-- `driverTermBeq` is reflexive. -/
theorem driverTermBeq_refl (a : DriverTerm) : driverTermBeq a a = true := by
  unfold driverTermBeq
  rw [Bool.and_eq_true]
  exact ⟨beq_self_eq_true _, driverVarsBeq_refl _⟩

/-- `driverTermBeq` is symmetric. -/
theorem driverTermBeq_symm (a b : DriverTerm) (h : driverTermBeq a b = true) :
    driverTermBeq b a = true := by
  unfold driverTermBeq at h ⊢
  rw [Bool.and_eq_true] at h ⊢
  exact ⟨by rw [eq_of_beq h.1]; exact beq_self_eq_true _, driverVarsBeq_symm _ _ h.2⟩

/-- `driverTermBeq` is transitive. -/
theorem driverTermBeq_trans (a b c : DriverTerm) (h1 : driverTermBeq a b = true)
    (h2 : driverTermBeq b c = true) : driverTermBeq a c = true := by
  unfold driverTermBeq at h1 h2 ⊢
  rw [Bool.and_eq_true] at h1 h2 ⊢
  exact ⟨by rw [eq_of_beq h1.1, eq_of_beq h2.1]; exact beq_self_eq_true _,
    driverVarsBeq_trans _ _ _ h1.2 h2.2⟩

/-- `copyLocalValBeq` is reflexive. -/
theorem copyLocalValBeq_refl (a : CopyLocalVal) : copyLocalValBeq a a = true := by
  unfold copyLocalValBeq
  rw [Bool.and_eq_true, Bool.and_eq_true]
  exact ⟨⟨beq_self_eq_true _, listBeq_refl _ driverTermBeq_refl _⟩, beq_self_eq_true _⟩

/-- `copyLocalValBeq` is symmetric. -/
theorem copyLocalValBeq_symm (a b : CopyLocalVal) (h : copyLocalValBeq a b = true) :
    copyLocalValBeq b a = true := by
  unfold copyLocalValBeq at h ⊢
  rw [Bool.and_eq_true, Bool.and_eq_true] at h ⊢
  refine ⟨⟨?_, listBeq_symm _ driverTermBeq_symm _ _ h.1.2⟩, ?_⟩
  · rw [eq_of_beq h.1.1]; exact beq_self_eq_true _
  · rw [eq_of_beq h.2]; exact beq_self_eq_true _

/-- `copyLocalValBeq` is transitive. -/
theorem copyLocalValBeq_trans (a b c : CopyLocalVal) (h1 : copyLocalValBeq a b = true)
    (h2 : copyLocalValBeq b c = true) : copyLocalValBeq a c = true := by
  unfold copyLocalValBeq at h1 h2 ⊢
  rw [Bool.and_eq_true, Bool.and_eq_true] at h1 h2 ⊢
  refine ⟨⟨?_, listBeq_trans _ driverTermBeq_trans _ _ _ h1.1.2 h2.1.2⟩, ?_⟩
  · rw [eq_of_beq h1.1.1, eq_of_beq h2.1.1]; exact beq_self_eq_true _
  · rw [eq_of_beq h1.2, eq_of_beq h2.2]; exact beq_self_eq_true _

/-- `addLocalValBeq` is reflexive. -/
theorem addLocalValBeq_refl (a : AddLocalVal) : addLocalValBeq a a = true := by
  unfold addLocalValBeq
  rw [Bool.and_eq_true, Bool.and_eq_true]
  exact ⟨⟨listBeq_refl _ driverTermBeq_refl _, listBeq_refl _ driverTermBeq_refl _⟩,
    listBeq_refl _ driverTermBeq_refl _⟩

/-- `addLocalValBeq` is symmetric. -/
theorem addLocalValBeq_symm (a b : AddLocalVal) (h : addLocalValBeq a b = true) :
    addLocalValBeq b a = true := by
  unfold addLocalValBeq at h ⊢
  rw [Bool.and_eq_true, Bool.and_eq_true] at h ⊢
  exact ⟨⟨listBeq_symm _ driverTermBeq_symm _ _ h.1.1,
    listBeq_symm _ driverTermBeq_symm _ _ h.1.2⟩,
    listBeq_symm _ driverTermBeq_symm _ _ h.2⟩

/-- `addLocalValBeq` is transitive. -/
theorem addLocalValBeq_trans (a b c : AddLocalVal) (h1 : addLocalValBeq a b = true)
    (h2 : addLocalValBeq b c = true) : addLocalValBeq a c = true := by
  unfold addLocalValBeq at h1 h2 ⊢
  rw [Bool.and_eq_true, Bool.and_eq_true] at h1 h2 ⊢
  exact ⟨⟨listBeq_trans _ driverTermBeq_trans _ _ _ h1.1.1 h2.1.1,
    listBeq_trans _ driverTermBeq_trans _ _ _ h1.1.2 h2.1.2⟩,
    listBeq_trans _ driverTermBeq_trans _ _ _ h1.2 h2.2⟩

/-- The Python value equality of compositors is reflexive. -/
theorem offsetEq_refl (a : ControlBoneParentOffset) : ControlBoneParentOffset.eq a a = true := by
  unfold ControlBoneParentOffset.eq
  rw [Bool.and_eq_true, Bool.and_eq_true]
  exact ⟨⟨beq_self_eq_true _, dictBeq_refl _ copyLocalValBeq_refl _⟩,
    dictBeq_refl _ addLocalValBeq_refl _⟩

/-- The Python value equality of compositors is symmetric. -/
theorem offsetEq_symm (a b : ControlBoneParentOffset)
    (h : ControlBoneParentOffset.eq a b = true) : ControlBoneParentOffset.eq b a = true := by
  unfold ControlBoneParentOffset.eq at h ⊢
  rw [Bool.and_eq_true, Bool.and_eq_true] at h ⊢
  refine ⟨⟨?_, dictBeq_symm _ copyLocalValBeq_symm _ _ h.1.2⟩,
    dictBeq_symm _ addLocalValBeq_symm _ _ h.2⟩
  rw [eq_of_beq h.1.1]
  exact beq_self_eq_true _

/-- The Python value equality of compositors is transitive. -/
theorem offsetEq_trans (a b c : ControlBoneParentOffset)
    (h1 : ControlBoneParentOffset.eq a b = true)
    (h2 : ControlBoneParentOffset.eq b c = true) : ControlBoneParentOffset.eq a c = true := by
  unfold ControlBoneParentOffset.eq at h1 h2 ⊢
  rw [Bool.and_eq_true, Bool.and_eq_true] at h1 h2 ⊢
  refine ⟨⟨?_, dictBeq_trans _ copyLocalValBeq_trans _ _ _ h1.1.2 h2.1.2⟩,
    dictBeq_trans _ addLocalValBeq_trans _ _ _ h1.2 h2.2⟩
  rw [eq_of_beq h1.1.1, eq_of_beq h2.1.1]
  exact beq_self_eq_true _

end Skin

namespace Skin

/-- `find?` only depends on the pointwise behaviour of the predicate. -/
theorem find?_congr_pred {α : Type} (p q : α → Bool) (hpq : ∀ x, p x = q x) :
    ∀ l : List α, l.find? p = l.find? q := by
  intro l
  induction l with
  | nil => rfl
  | cons a l ih =>
    unfold List.find?
    rw [hpq a, ih]

/-- `find?` over an append whose first part has no match. -/
theorem find?_append_of_none {α : Type} (p : α → Bool) (l1 l2 : List α)
    (h : l1.find? p = none) : (l1 ++ l2).find? p = l2.find? p := by
  induction l1 with
  | nil => rfl
  | cons a l1 ih =>
    cases hpa : p a with
    | true =>
      rw [List.find?_cons_of_pos _ hpa] at h
      exact Option.noConfusion h
    | false =>
      have hpa2 : ¬ p a = true := by rw [hpa]; exact Bool.false_ne_true
      rw [List.find?_cons_of_neg _ hpa2] at h
      rw [List.cons_append, List.find?_cons_of_neg _ hpa2]
      exact ih h

/-- In a cache with pairwise distinct identities, an identity determines its
entry. -/
theorem cache_entry_unique {l : List (Nat × ControlBoneParentOffset)}
    (hnodup : (l.map Prod.fst).Nodup) {i : Nat} {a b : ControlBoneParentOffset}
    (ha : (i, a) ∈ l) (hb : (i, b) ∈ l) : a = b := by
  induction l with
  | nil => cases ha
  | cons e l ih =>
    simp only [List.map_cons, List.nodup_cons] at hnodup
    rcases List.mem_cons.mp ha with ha1 | ha1
    · rcases List.mem_cons.mp hb with hb1 | hb1
      · rw [← ha1] at hb1
        exact (Prod.mk.injEq .. ▸ hb1.symm).2
      · exfalso
        have hin : i ∈ l.map Prod.fst := List.mem_map.mpr ⟨(i, b), hb1, rfl⟩
        rw [← ha1] at hnodup
        exact hnodup.1 hin
    · rcases List.mem_cons.mp hb with hb1 | hb1
      · exfalso
        have hin : i ∈ l.map Prod.fst := List.mem_map.mpr ⟨(i, a), ha1, rfl⟩
        rw [← hb1] at hnodup
        exact hnodup.1 hin
      · exact ih hnodup.2 ha1 hb1

/-- Value-equal queries scan the cache identically. -/
theorem find?_eq_of_offsetEq (v1 v2 : ControlBoneParentOffset)
    (hv : ControlBoneParentOffset.eq v1 v2 = true)
    (l : List (Nat × ControlBoneParentOffset)) :
    l.find? (fun e => ControlBoneParentOffset.eq e.2 v2)
      = l.find? (fun e => ControlBoneParentOffset.eq e.2 v1) := by
  refine find?_congr_pred _ _ ?_ l
  intro x
  cases hx : ControlBoneParentOffset.eq x.2 v1 with
  | true => exact offsetEq_trans x.2 v1 v2 hx hv
  | false =>
    cases hx2 : ControlBoneParentOffset.eq x.2 v2 with
    | true =>
      exfalso
      have := offsetEq_trans x.2 v2 v1 hx2 (offsetEq_symm v1 v2 hv)
      rw [hx] at this
      exact Bool.noConfusion this
    | false => rfl

/-- Claim C9 (confirmed): starting from a cache with distinct, fresh object
identities, building the parent twice for value-equal mechanism descriptions
(`ControlBoneParentOffset.__eq__`: same upstream parent, equal contribution
dicts — value equality, not identity) returns the identical cached object
both times and leaves the cache untouched by the second call, while a request
that is not value-equal (e.g. a differently-weighted contribution) returns a
distinct object. -/
theorem build_parent_for_node_dedup (c0 : ParentCache)
    (v1 v2 : ControlBoneParentOffset)
    (hfresh : ∀ e ∈ c0.entries, e.1 < c0.next)
    (hnodup : (c0.entries.map Prod.fst).Nodup) :
    (ControlBoneParentOffset.eq v1 v2 = true →
      (build_parent_for_node (build_parent_for_node c0 v1).2 v2).1
          = (build_parent_for_node c0 v1).1 ∧
      (build_parent_for_node (build_parent_for_node c0 v1).2 v2).2
          = (build_parent_for_node c0 v1).2) ∧
    (ControlBoneParentOffset.eq v1 v2 = false →
      (build_parent_for_node (build_parent_for_node c0 v1).2 v2).1
          ≠ (build_parent_for_node c0 v1).1) := by
  cases h1 : c0.entries.find? (fun e => ControlBoneParentOffset.eq e.2 v1) with
  | some e =>
    have he_mem : e ∈ c0.entries := List.mem_of_find?_eq_some h1
    have he_eq0 := List.find?_some h1
    have he_eq : ControlBoneParentOffset.eq e.2 v1 = true := he_eq0
    have hb1 : build_parent_for_node c0 v1 = (e.1, c0) := by
      unfold build_parent_for_node
      rw [h1]
    rw [hb1]
    constructor
    · intro hv
      have h2 : c0.entries.find? (fun x => ControlBoneParentOffset.eq x.2 v2) = some e := by
        rw [find?_eq_of_offsetEq v1 v2 hv]
        exact h1
      unfold build_parent_for_node
      rw [h2]
      exact ⟨rfl, rfl⟩
    · intro hv
      cases h2 : c0.entries.find? (fun x => ControlBoneParentOffset.eq x.2 v2) with
      | some e2 =>
        have he2_mem : e2 ∈ c0.entries := List.mem_of_find?_eq_some h2
        have he2_eq0 := List.find?_some h2
        have he2_eq : ControlBoneParentOffset.eq e2.2 v2 = true := he2_eq0
        unfold build_parent_for_node
        rw [h2]
        simp only [ne_eq]
        intro hcontra
        have hsame : e.2 = e2.2 := by
          have hyp1 : (e.1, e.2) ∈ c0.entries := by rwa [Prod.mk.eta]
          have hyp2 : (e.1, e2.2) ∈ c0.entries := by
            rw [show e.1 = e2.1 from hcontra.symm, Prod.mk.eta]
            exact he2_mem
          exact cache_entry_unique hnodup hyp1 hyp2
        have : ControlBoneParentOffset.eq v1 v2 = true :=
          offsetEq_trans v1 e.2 v2 (offsetEq_symm e.2 v1 he_eq) (hsame ▸ he2_eq)
        rw [hv] at this
        exact Bool.noConfusion this
      | none =>
        unfold build_parent_for_node
        rw [h2]
        simp only [ne_eq]
        intro hcontra
        exact absurd (hcontra ▸ hfresh e he_mem) (lt_irrefl _)
  | none =>
    have hb1 : build_parent_for_node c0 v1
        = (c0.next, ⟨c0.entries ++ [(c0.next, v1)], c0.next + 1⟩) := by
      unfold build_parent_for_node
      rw [h1]
    rw [hb1]
    constructor
    · intro hv
      have h2 : (c0.entries ++ [(c0.next, v1)]).find?
          (fun x => ControlBoneParentOffset.eq x.2 v2) = some (c0.next, v1) := by
        rw [find?_eq_of_offsetEq v1 v2 hv, find?_append_of_none _ _ _ h1]
        unfold List.find?
        rw [offsetEq_refl v1]
      unfold build_parent_for_node
      rw [h2]
      exact ⟨rfl, rfl⟩
    · intro hv
      cases h2 : (c0.entries ++ [(c0.next, v1)]).find?
          (fun x => ControlBoneParentOffset.eq x.2 v2) with
      | some e2 =>
        have he2_mem := List.mem_of_find?_eq_some h2
        have he2_eq0 := List.find?_some h2
        have he2_eq : ControlBoneParentOffset.eq e2.2 v2 = true := he2_eq0
        unfold build_parent_for_node
        rw [h2]
        simp only [ne_eq]
        intro hcontra
        rcases List.mem_append.mp he2_mem with hmem | hmem
        · exact absurd (hcontra ▸ hfresh e2 hmem) (lt_irrefl _)
        · have : e2 = (c0.next, v1) := List.mem_singleton.mp hmem
          rw [this] at he2_eq
          have : ControlBoneParentOffset.eq v1 v2 = true := he2_eq
          rw [hv] at this
          exact Bool.noConfusion this
      | none =>
        unfold build_parent_for_node
        rw [h2]
        simp only [ne_eq]
        omega

/-- Witness for the C9 theorem, from the empty cache: `offsetV2` accumulates
the same contributions as `offsetV1` in a different dict order (value-equal,
not syntactically identical), and is served the cached object with the same
identity; `offsetV3` carries a differently-weighted contribution and gets a
distinct object. -/
theorem build_parent_for_node_dedup_witness :
    ControlBoneParentOffset.eq offsetV1 offsetV2 = true ∧
    (build_parent_for_node (build_parent_for_node ⟨[], 0⟩ offsetV1).2 offsetV2).1
        = (build_parent_for_node ⟨[], 0⟩ offsetV1).1 ∧
    ControlBoneParentOffset.eq offsetV1 offsetV3 = false ∧
    (build_parent_for_node (build_parent_for_node ⟨[], 0⟩ offsetV1).2 offsetV3).1
        ≠ (build_parent_for_node ⟨[], 0⟩ offsetV1).1 := by
  refine ⟨by decide, ?_, by decide, ?_⟩
  · exact ((build_parent_for_node_dedup ⟨[], 0⟩ offsetV1 offsetV2
      (by simp) (by simp)).1 (by decide)).1
  · exact (build_parent_for_node_dedup ⟨[], 0⟩ offsetV1 offsetV3
      (by simp) (by simp)).2 (by decide)

/-- Claim C10 (confirmed): a compositor to which no weighted contribution and
no directional driver was ever added (both contribution dicts empty, as in a
freshly wrapped parent) generates zero mechanism bones, and its `output_bone`
is exactly the wrapped parent's `output_bone`. -/
theorem ControlBoneParentOffset.no_contributions_passthrough
    (p : ControlBoneParentOffset)
    (h1 : p.copy_local = []) (h2 : p.add_local = []) :
    p.generate_bones = [] ∧ p.output_bone = p.parent.output_bone := by
  have hg : p.generate_bones = [] := by
    unfold ControlBoneParentOffset.generate_bones
    rw [h1, h2]
    rfl
  refine ⟨hg, ?_⟩
  unfold ControlBoneParentOffset.output_bone
  rw [hg]
  rfl

/-- Witness for the C10 theorem: a freshly wrapped ORG parent with no
contributions generates no bones and forwards `ORG-spine`. -/
theorem ControlBoneParentOffset.no_contributions_passthrough_witness :
    (ControlBoneParentOffset.wrap (.plain (.org "ORG-spine")) "node").generate_bones = [] ∧
    (ControlBoneParentOffset.wrap (.plain (.org "ORG-spine")) "node").output_bone
        = "ORG-spine" :=
  ControlBoneParentOffset.no_contributions_passthrough
    (ControlBoneParentOffset.wrap (.plain (.org "ORG-spine")) "node") rfl rfl

end Skin
